import Mathlib

/-!
Verification of the wbtree weight-balanced binary search tree (tree.go).

The Go `*Tree` pointer is embedded as an inductive: the Go `nil` pointer is the
`nil` constructor, a node carries `left`, `right`, the stored `childSize`
field, `key` and `value`.  Go machine integers (`uint64` `childSize`) are
modelled as `Nat`: sizes of trees reachable by the public operations are far
below 2^64, so wraparound is unreachable there, and the one decrement in
`Remove` happens only when the decremented field is provably positive.

Go mutates nodes in place; the embedding is functional: every mutation is the
reattachment of the returned (possibly updated) child, which is observably the
same thing for a single tree handle (the spec declares aliased stale handles
undefined behaviour).  A Go `panic` from dereferencing a nil pointer is
modelled by `Option`: `none` means the Go code would have faulted.

The key contract `Cmpable.Cmp` (a three-way comparison) is modelled by `cmp3`
over a `LinearOrder`, returning -1, 0 or 1 as the Go documentation states;
the code only tests the result against `== 0` and `< 0`.
-/

set_option linter.unusedSectionVars false

namespace Wbtree

inductive Tree (K V : Type) : Type where
  | nil : Tree K V
  | node (left : Tree K V) (right : Tree K V) (childSize : Nat) (key : K) (value : V) : Tree K V
deriving DecidableEq

open Tree (nil node)

/-- Go: `treeDelta = 3` (tree.go line 8). -/
def treeDelta : Nat := 3

/-- Go: `treeGamma = 2` (tree.go line 9). -/
def treeGamma : Nat := 2

variable {K V R : Type} [LinearOrder K]

/-- The `Cmpable` contract (tree.go lines 15-21): `a.Cmp(b)` is -1, 0, +1 for
`a < b`, `a = b`, `a > b`, here induced by a linear order on `K` (a consistent
total order, as the spec's capability contract requires). -/
def cmp3 (a b : K) : Int :=
  if a < b then -1 else if a = b then 0 else 1

/-- Go: `Size` (tree.go lines 49-54): `0` for nil, else the stored
`childSize + 1`. -/
def Size : Tree K V → Nat
  | nil => 0
  | node _ _ cs _ _ => cs + 1

/-- Go: `RootKey` (tree.go lines 33-38): the zero value of `K` on the empty
tree (Go zero values are modelled by `default`). -/
def RootKey [Inhabited K] : Tree K V → K
  | nil => default
  | node _ _ _ k _ => k

/-- Go: `RootValue` (tree.go lines 41-46). -/
def RootValue [Inhabited V] : Tree K V → V
  | nil => default
  | node _ _ _ _ v => v

/-- Go `t == nil` test on a tree handle. -/
def isNil : Tree K V → Bool
  | nil => true
  | node _ _ _ _ _ => false

/-- Go `c.left` read guarded by `c != nil` (the guard in tree.go line 311
makes the grandchildren of a nil child nil). -/
def childLeft : Tree K V → Tree K V
  | nil => nil
  | node l _ _ _ _ => l

/-- Go `c.right` read guarded by `c != nil`. -/
def childRight : Tree K V → Tree K V
  | nil => nil
  | node _ r _ _ _ => r

/-- Go: `GetNode` (tree.go lines 134-152).  The Go code returns early when
`next == nil`; recursing into the nil child returns the same `nil`. -/
def GetNode : Tree K V → K → Tree K V
  | nil, _ => nil
  | node l r cs k v, key =>
    if cmp3 k key = 0 then node l r cs k v
    else if cmp3 k key < 0 then GetNode r key
    else GetNode l key

/-- Go: `Get` (tree.go lines 129-131). -/
def Get [Inhabited V] (t : Tree K V) (key : K) : V :=
  RootValue (GetNode t key)

/-- Go: `balance` (tree.go lines 305-359), translated clause by clause.
`none` marks the nil-pointer faults the Go code would hit: field access on a
nil receiver, writing the children of a nil `c` in a rotation, or reading the
children of a nil `b` in a double rotation. -/
def balance (t : Tree K V) (rightHeavy : Bool) : Option (Tree K V) :=
  match t with
  | nil => none
  | node tl tr tcs tk tv =>
    let x := if rightHeavy then tl else tr
    let c := if rightHeavy then tr else tl
    let b := if rightHeavy then childLeft c else childRight c
    let z := if rightHeavy then childRight c else childLeft c
    let xSize := Size x
    let cSize := Size c
    if (xSize + 1) * treeDelta ≥ cSize + 1 then
      some (node tl tr tcs tk tv)
    else
      let bSize := Size b
      let zSize := Size z
      match c with
      | nil => none
      | node _ _ _ ck cv =>
        if bSize + 1 < (zSize + 1) * treeGamma then
          let t2 := if rightHeavy then node x b (xSize + bSize) tk tv
                    else node b x (xSize + bSize) tk tv
          some (if rightHeavy then node t2 z (Size t2 + zSize) ck cv
                else node z t2 (Size t2 + zSize) ck cv)
        else
          match b with
          | nil => none
          | node bl br _ bk bv =>
            let s := if rightHeavy then bl else br
            let y := if rightHeavy then br else bl
            let t2 := if rightHeavy then node x s (xSize + Size s) tk tv
                      else node s x (xSize + Size s) tk tv
            let c2 := if rightHeavy then node y z (Size y + zSize) ck cv
                      else node z y (Size y + zSize) ck cv
            some (if rightHeavy then node t2 c2 (Size t2 + Size c2) bk bv
                  else node c2 t2 (Size t2 + Size c2) bk bv)

/-- Go: `Insert` (tree.go lines 157-207).  The Go `next == nil` branch builds
the fresh leaf that is then attached exactly like a recursive result with
`added = true`; Go's in-place child mutation is the reattachment of the
returned child, and the `!added` early return keeps the original `childSize`
and skips `balance`, as in the source. -/
def Insert : Tree K V → K → V → Option (Tree K V × Bool)
  | nil, key, val => some (node nil nil 0 key val, true)
  | node l r cs k v, key, val =>
    if cmp3 k key = 0 then some (node l r cs k val, false)
    else if cmp3 k key < 0 then
      if isNil r then
        (balance (node l (node nil nil 0 key val) (cs + 1) k v) true).map (fun u => (u, true))
      else
        match Insert r key val with
        | none => none
        | some (next, added) =>
          if added then (balance (node l next (cs + 1) k v) true).map (fun u => (u, true))
          else some (node l next cs k v, false)
    else
      if isNil l then
        (balance (node (node nil nil 0 key val) r (cs + 1) k v) false).map (fun u => (u, true))
      else
        match Insert l key val with
        | none => none
        | some (next, added) =>
          if added then (balance (node next r (cs + 1) k v) false).map (fun u => (u, true))
          else some (node next r cs k v, false)

/-- Purification helper for the Go callback pattern: the Go callbacks close
over mutable state (e.g. the `result` slice in `top`); here a callback takes
and returns the state explicitly, together with the continue flag.
`foldStop f s l` runs `f` over `l` from the left, stopping as soon as a call
returns `false`; the second component reports whether the walk ran to the
end. -/
def foldStop {σ α : Type} (f : σ → α → σ × Bool) : σ → List α → σ × Bool
  | s, [] => (s, true)
  | s, a :: as =>
    let p := f s a
    if p.2 then foldStop f p.1 as else (p.1, false)

/-- Go: `forEachNode` (tree.go lines 286-299).  `prev`/`next` are the left and
right children, swapped when `reversed`; the Go nil guards (`prev != nil &&`,
`next == nil ||`) coincide with the nil case returning `true` with the state
untouched.  The callback threads its state explicitly (see `foldStop`). -/
def forEachNode {σ : Type} (f : σ → Tree K V → σ × Bool) : Bool → Tree K V → σ → σ × Bool
  | _, nil, s => (s, true)
  | false, node l r cs k v, s =>
    let p := forEachNode f false l s
    if !p.2 then (p.1, false)
    else
      let q := f p.1 (node l r cs k v)
      if !q.2 then (q.1, false)
      else forEachNode f false r q.1
  | true, node l r cs k v, s =>
    let p := forEachNode f true r s
    if !p.2 then (p.1, false)
    else
      let q := f p.1 (node l r cs k v)
      if !q.2 then (q.1, false)
      else forEachNode f true l q.1

/-- Go: `top` (tree.go lines 112-126).  `n` is a Go `int` (possibly
negative), modelled as `Int`.  The `max` computation in the source only sizes
the slice's capacity and has no observable effect, so it is not modelled; the
closure appends `f node` and continues while `len(result) < n`. -/
def top (t : Tree K V) (n : Int) (reversed : Bool) (f : Tree K V → R) : List R :=
  match t with
  | nil => []
  | node l r cs k v =>
    (forEachNode (fun res nd => (res ++ [f nd], decide ((res.length : Int) + 1 < n)))
      reversed (node l r cs k v) []).1

/-- Go: `identity` (tree.go line 361). -/
def identity {T : Type} (x : T) : T := x

/-- Go: `getKeyFunc` (tree.go line 362). -/
def getKeyFunc [Inhabited K] (t : Tree K V) : K := RootKey t

/-- Go: `getValFunc` (tree.go line 363). -/
def getValFunc [Inhabited V] (t : Tree K V) : V := RootValue t

/-- Go: `Least` (tree.go lines 67-69). -/
def Least (t : Tree K V) (n : Int) : List (Tree K V) :=
  top t n false identity

/-- Go: `LeastKeys` (tree.go lines 72-74). -/
def LeastKeys [Inhabited K] (t : Tree K V) (n : Int) : List K :=
  top t n false getKeyFunc

/-- Go: `LeastValues` (tree.go lines 77-79). -/
def LeastValues [Inhabited V] (t : Tree K V) (n : Int) : List V :=
  top t n false getValFunc

/-- Go: `Greatest` (tree.go lines 82-84). -/
def Greatest (t : Tree K V) (n : Int) : List (Tree K V) :=
  top t n true identity

/-- Go: `GreatestKeys` (tree.go lines 87-89). -/
def GreatestKeys [Inhabited K] (t : Tree K V) (n : Int) : List K :=
  top t n true getKeyFunc

/-- Go: `GreatestValues` (tree.go lines 92-94). -/
def GreatestValues [Inhabited V] (t : Tree K V) (n : Int) : List V :=
  top t n true getValFunc

/-- Go: `Keys` (tree.go lines 57-59): `LeastKeys(int(t.Size()))`.  The
`uint64` to `int` cast cannot wrap for any tree the public operations can
build, so it is the plain coercion. -/
def Keys [Inhabited K] (t : Tree K V) : List K :=
  LeastKeys t (Size t : Int)

/-- Go: `Values` (tree.go lines 62-64). -/
def Values [Inhabited V] (t : Tree K V) : List V :=
  LeastValues t (Size t : Int)

/-- Go: `GreatestNode` (tree.go lines 97-102). -/
def GreatestNode (t : Tree K V) : Tree K V :=
  match Greatest t 1 with
  | [] => nil
  | x :: _ => x

/-- Go: `LeastNode` (tree.go lines 105-110). -/
def LeastNode (t : Tree K V) : Tree K V :=
  match Least t 1 with
  | [] => nil
  | x :: _ => x

/-- Go: `forEach` (tree.go lines 280-284), the wrapper passing root key and
value of each visited node to the callback. -/
def forEach {σ : Type} [Inhabited K] [Inhabited V] (t : Tree K V)
    (f : σ → K → V → σ × Bool) (reversed : Bool) (s : σ) : σ × Bool :=
  forEachNode (fun st nd => f st (RootKey nd) (RootValue nd)) reversed t s

/-- Go: `ForEach` (tree.go lines 265-270). -/
def ForEach {σ : Type} [Inhabited K] [Inhabited V] (t : Tree K V)
    (f : σ → K → V → σ × Bool) (s : σ) : σ :=
  if isNil t then s else (forEach t f false s).1

/-- Go: `ReverseForEach` (tree.go lines 273-278). -/
def ReverseForEach {σ : Type} [Inhabited K] [Inhabited V] (t : Tree K V)
    (f : σ → K → V → σ × Bool) (s : σ) : σ :=
  if isNil t then s else (forEach t f true s).1

/-- Go: `Remove` (tree.go lines 211-262).  The two-children case splices in
the in-order successor found by `LeastNode`; reading its `key`/`value` fields
on a nil result would fault in Go, hence the `none` arm.  `childSize--` is
`cs - 1`; the decrement only happens when a node was actually removed below,
where `cs ≥ 1`, so `uint64` wraparound is unreachable. -/
def Remove : Tree K V → K → Option (Tree K V × Bool)
  | nil, _ => some (nil, false)
  | node l r cs k v, key =>
    if cmp3 k key = 0 then
      if isNil l && isNil r then some (nil, true)
      else if !isNil l && !isNil r then
        match LeastNode r with
        | nil => none
        | node _ _ _ mk mv =>
          match Remove r mk with
          | none => none
          | some (newR, _) =>
            (balance (node l newR (cs - 1) mk mv) false).map (fun u => (u, true))
      else if isNil l then some (r, true)
      else some (l, true)
    else if cmp3 k key < 0 then
      match Remove r key with
      | none => none
      | some (newNext, removed) =>
        if removed then (balance (node l newNext (cs - 1) k v) false).map (fun u => (u, true))
        else some (node l r cs k v, false)
    else
      match Remove l key with
      | none => none
      | some (newNext, removed) =>
        if removed then (balance (node newNext r (cs - 1) k v) true).map (fun u => (u, true))
        else some (node l r cs k v, false)

/-! ## Verification-side definitions: ground-truth measures, invariants, and
the sorted association-list model the tree refines. -/

/-- Ground-truth node count, computed by traversal (the stored `childSize`
fields are checked against it by `sizeOk`). -/
def realSize : Tree K V → Nat
  | nil => 0
  | node l r _ _ _ => realSize l + realSize r + 1

/-- In-order list of keys. -/
def keys : Tree K V → List K
  | nil => []
  | node l r _ k _ => keys l ++ k :: keys r

/-- In-order list of (key, value) entries. -/
def toList : Tree K V → List (K × V)
  | nil => []
  | node l r _ k v => toList l ++ (k, v) :: toList r

/-- In-order list of the tree's nodes (each element is the subtree rooted at
that node), the sequence `forEachNode` visits when not reversed. -/
def nodesInOrder : Tree K V → List (Tree K V)
  | nil => []
  | node l r cs k v => nodesInOrder l ++ node l r cs k v :: nodesInOrder r

/-- Root entry of a node; the `nil` case is junk (never used: `nodesInOrder`
contains only `node` elements). -/
def rootKV (d : K × V) : Tree K V → K × V
  | nil => d
  | node _ _ _ k v => (k, v)

/-- The tree with values erased: captures "same structure, same keys, same
childSize fields". -/
def eraseValues : Tree K V → Tree K Unit
  | nil => nil
  | node l r cs k _ => node (eraseValues l) (eraseValues r) cs k ()

/-- §3 invariant 2 (size bookkeeping): every node's stored `childSize` equals
the sum of the sizes of its two children. -/
def sizeOk : Tree K V → Bool
  | nil => true
  | node l r cs _ _ => (cs = realSize l + realSize r) && sizeOk l && sizeOk r

/-- §3 invariant 3 at one node, for child node-counts `a` and `c`:
`(a+1)*delta ≥ c+1` in both child orderings (delta = 3). -/
def balancedAt (a c : Nat) : Bool :=
  (a + 1) * treeDelta ≥ c + 1 && (c + 1) * treeDelta ≥ a + 1

/-- §3 invariant 3 (weight balance) at every node. -/
def isBalanced : Tree K V → Bool
  | nil => true
  | node l r _ _ _ => balancedAt (realSize l) (realSize r) && isBalanced l && isBalanced r

/-- §3 invariant 1 (BST order), stated locally as the spec does: every key in
`left` is less than this node's key, every key in `right` greater, at every
node. -/
def isBSTb : Tree K V → Bool
  | nil => true
  | node l r _ k _ =>
    (keys l).all (fun a => a < k) && (keys r).all (fun a => k < a) && isBSTb l && isBSTb r

/-- Entry lists sorted strictly by key. -/
def pairsSorted (l : List (K × V)) : Prop :=
  l.Pairwise (fun p q => p.1 < q.1)

/-- One public mutating call. -/
inductive Op (K V : Type) : Type where
  | ins (k : K) (v : V) : Op K V
  | del (k : K) : Op K V
deriving DecidableEq

/-- Running one public mutating call on a tree handle (`none` = the Go code
would fault, which never happens; see `Insert_isSome`/`Remove_isSome`). -/
def applyOp (t : Tree K V) : Op K V → Option (Tree K V)
  | .ins k v => (Insert t k v).map (fun p => p.1)
  | .del k => (Remove t k).map (fun p => p.1)

/-- Running a sequence of public mutating calls from a given handle. -/
def buildFrom (t : Tree K V) : List (Op K V) → Option (Tree K V)
  | [] => some t
  | op :: ops =>
    match applyOp t op with
    | none => none
    | some t' => buildFrom t' ops

/-- Running a sequence of public mutating calls from the empty tree: exactly
the trees reachable through the public interface. -/
def build (ops : List (Op K V)) : Option (Tree K V) :=
  buildFrom nil ops

/-- The specification-level model: insertion into a key-sorted association
list, replacing the entry on an equal key. -/
def modelInsert (k : K) (v : V) : List (K × V) → List (K × V)
  | [] => [(k, v)]
  | (k', v') :: rest =>
    if k < k' then (k, v) :: (k', v') :: rest
    else if k = k' then (k, v) :: rest
    else (k', v') :: modelInsert k v rest

/-- The specification-level model: removal of the first entry with the given
key (the only one, on sorted lists). -/
def modelRemove (k : K) : List (K × V) → List (K × V)
  | [] => []
  | (k', v') :: rest => if k' = k then rest else (k', v') :: modelRemove k rest

/-- One call, on the model. -/
def modelStep (m : List (K × V)) : Op K V → List (K × V)
  | .ins k v => modelInsert k v m
  | .del k => modelRemove k m

/-- A call sequence, on the model. -/
def modelRunFrom (m : List (K × V)) : List (Op K V) → List (K × V)
  | [] => m
  | op :: ops => modelRunFrom (modelStep m op) ops

/-- A call sequence from the empty model: the entry list the spec says the
tree holds after those calls. -/
def modelRun (ops : List (Op K V)) : List (K × V) :=
  modelRunFrom [] ops

/-- Whether an operation mentions the key `k` (used to state "not
subsequently overwritten or removed"). -/
def touches (k : K) : Op K V → Prop
  | .ins k' _ => k' = k
  | .del k' => k' = k

/-! ## Basic lemmas -/

theorem cmp3_eq_zero_iff {a b : K} : cmp3 a b = 0 ↔ a = b := by
  unfold cmp3
  split_ifs with h1 h2
  · simp [h1.ne]
  · simp [h2]
  · simp [h2]

theorem cmp3_lt_zero_iff {a b : K} : cmp3 a b < 0 ↔ a < b := by
  unfold cmp3
  split_ifs with h1 h2
  · simp [h1]
  · simp [h2]
  · simpa using h1

theorem lt_of_cmp3_pos {a b : K} (h0 : ¬cmp3 a b = 0) (h1 : ¬cmp3 a b < 0) : b < a := by
  rw [cmp3_eq_zero_iff] at h0
  rw [cmp3_lt_zero_iff] at h1
  exact (lt_or_gt_of_ne h0).resolve_left h1

theorem sizeOk_node {l r : Tree K V} {cs : Nat} {k : K} {v : V} :
    sizeOk (node l r cs k v) = true ↔
      cs = realSize l + realSize r ∧ sizeOk l = true ∧ sizeOk r = true := by
  simp [sizeOk, Bool.and_eq_true, and_assoc]

theorem isBalanced_node {l r : Tree K V} {cs : Nat} {k : K} {v : V} :
    isBalanced (node l r cs k v) = true ↔
      balancedAt (realSize l) (realSize r) = true ∧
        isBalanced l = true ∧ isBalanced r = true := by
  simp [isBalanced, Bool.and_eq_true, and_assoc]

theorem balancedAt_iff {a c : Nat} :
    balancedAt a c = true ↔ (a + 1) * 3 ≥ c + 1 ∧ (c + 1) * 3 ≥ a + 1 := by
  simp [balancedAt, treeDelta]

theorem isBSTb_node {l r : Tree K V} {cs : Nat} {k : K} {v : V} :
    isBSTb (node l r cs k v) = true ↔
      (∀ a ∈ keys l, a < k) ∧ (∀ a ∈ keys r, k < a) ∧
        isBSTb l = true ∧ isBSTb r = true := by
  simp [isBSTb, Bool.and_eq_true, and_assoc, List.all_eq_true]

theorem Size_eq_realSize {t : Tree K V} (h : sizeOk t = true) : Size t = realSize t := by
  cases t with
  | nil => rfl
  | node l r cs k v =>
    rcases sizeOk_node.1 h with ⟨hcs, -, -⟩
    simp [Size, realSize, hcs]

theorem toList_length (t : Tree K V) : (toList t).length = realSize t := by
  induction t with
  | nil => rfl
  | node l r cs k v ihl ihr => simp [toList, realSize, ihl, ihr]; omega

theorem keys_eq_map (t : Tree K V) : keys t = (toList t).map Prod.fst := by
  induction t with
  | nil => rfl
  | node l r cs k v ihl ihr => simp [keys, toList, ihl, ihr]

theorem toList_eq_map_nodes (d : K × V) (t : Tree K V) :
    toList t = (nodesInOrder t).map (rootKV d) := by
  induction t with
  | nil => rfl
  | node l r cs k v ihl ihr => simp [toList, nodesInOrder, rootKV, ihl, ihr]

theorem realSize_eq_zero_iff {t : Tree K V} : realSize t = 0 ↔ t = nil := by
  cases t <;> simp [realSize]

theorem isBSTb_iff_pairsSorted : ∀ t : Tree K V, isBSTb t = true ↔ pairsSorted (toList t) := by
  intro t
  induction t with
  | nil => simp [isBSTb, toList, pairsSorted]
  | node l r cs k v ihl ihr =>
    rw [isBSTb_node, ihl, ihr]
    unfold pairsSorted at *
    rw [toList, List.pairwise_append, List.pairwise_cons]
    simp only [keys_eq_map, List.mem_map, forall_exists_index, and_imp, List.mem_cons]
    constructor
    · rintro ⟨hlk, hrk, hl, hr⟩
      refine ⟨hl, ⟨fun q hq => hrk q.1 q hq rfl, hr⟩, ?_⟩
      rintro p hp q (rfl | hq)
      · exact hlk p.1 p hp rfl
      · exact lt_trans (hlk p.1 p hp rfl) (hrk q.1 q hq rfl)
    · rintro ⟨hl, ⟨hk, hr⟩, hcross⟩
      refine ⟨?_, ?_, hl, hr⟩
      · rintro a p hp rfl
        exact hcross p hp (k, v) (Or.inl rfl)
      · rintro a p hp rfl
        exact hk p hp

/-! ## The rebalance engine: `balance` restores the weight-balance invariant
after one insertion into / removal from one side, for delta = 3, gamma = 2.
The preconditions `hpre1`/`hpre2` say the imbalance is at most "off by one":
they hold both after an insertion into the designated heavy side of a
previously balanced node and after a removal from the other side. -/

theorem balance_node_true (tl tr : Tree K V) (tcs : Nat) (tk : K) (tv : V) :
    balance (node tl tr tcs tk tv) true =
      if Size tr + 1 ≤ (Size tl + 1) * treeDelta then some (node tl tr tcs tk tv)
      else
        match tr with
        | nil => none
        | node cl cr _ ck cv =>
          if Size cl + 1 < (Size cr + 1) * treeGamma then
            some (node (node tl cl (Size tl + Size cl) tk tv) cr
              (Size tl + Size cl + 1 + Size cr) ck cv)
          else
            match cl with
            | nil => none
            | node bl br _ bk bv =>
              some (node (node tl bl (Size tl + Size bl) tk tv)
                (node br cr (Size br + Size cr) ck cv)
                (Size tl + Size bl + 1 + (Size br + Size cr + 1)) bk bv) := by
  cases tr with
  | nil => rfl
  | node cl cr ccs ck cv =>
    cases cl with
    | nil => rfl
    | node bl br bcs bk bv => rfl

theorem balance_node_false (tl tr : Tree K V) (tcs : Nat) (tk : K) (tv : V) :
    balance (node tl tr tcs tk tv) false =
      if Size tl + 1 ≤ (Size tr + 1) * treeDelta then some (node tl tr tcs tk tv)
      else
        match tl with
        | nil => none
        | node cl cr _ ck cv =>
          if Size cr + 1 < (Size cl + 1) * treeGamma then
            some (node cl (node cr tr (Size tr + Size cr) tk tv)
              (Size tr + Size cr + 1 + Size cl) ck cv)
          else
            match cr with
            | nil => none
            | node bl br _ bk bv =>
              some (node (node cl bl (Size bl + Size cl) ck cv)
                (node br tr (Size tr + Size br) tk tv)
                (Size tr + Size br + 1 + (Size bl + Size cl + 1)) bk bv) := by
  cases tl with
  | nil => rfl
  | node cl cr ccs ck cv =>
    cases cr with
    | nil => rfl
    | node bl br bcs bk bv => rfl

theorem balance_spec_r (l r : Tree K V) (cs : Nat) (k : K) (v : V)
    (hls : sizeOk l = true) (hrs : sizeOk r = true)
    (hlb : isBalanced l = true) (hrb : isBalanced r = true)
    (hcs : cs = realSize l + realSize r)
    (hpre1 : realSize r + 1 ≤ 3 * (realSize l + 2))
    (hpre2 : realSize l + 1 ≤ 3 * (realSize r + 1)) :
    ∃ t', balance (node l r cs k v) true = some t' ∧
      sizeOk t' = true ∧ isBalanced t' = true ∧
      toList t' = toList (node l r cs k v) ∧
      realSize t' = realSize l + realSize r + 1 := by
  have hSl : Size l = realSize l := Size_eq_realSize hls
  have hSr : Size r = realSize r := Size_eq_realSize hrs
  rw [balance_node_true]
  by_cases hbal : Size r + 1 ≤ (Size l + 1) * treeDelta
  · rw [if_pos hbal]
    refine ⟨node l r cs k v, rfl, ?_, ?_, rfl, by simp [realSize]⟩
    · rw [sizeOk_node]; exact ⟨hcs, hls, hrs⟩
    · rw [isBalanced_node, balancedAt_iff]
      rw [hSl, hSr, treeDelta] at hbal
      exact ⟨⟨by omega, by omega⟩, hlb, hrb⟩
  · rw [if_neg hbal]
    rw [hSl, hSr, treeDelta] at hbal
    cases r with
    | nil =>
      exfalso
      simp [realSize] at hbal
    | node cl cr ccs ck cv =>
      rcases sizeOk_node.1 hrs with ⟨hccs, hcls, hcrs⟩
      rcases isBalanced_node.1 hrb with ⟨hcba, hclb, hcrb⟩
      rw [balancedAt_iff] at hcba
      have hScl : Size cl = realSize cl := Size_eq_realSize hcls
      have hScr : Size cr = realSize cr := Size_eq_realSize hcrs
      have hrsz : realSize (node cl cr ccs ck cv) = realSize cl + realSize cr + 1 := by
        simp [realSize]
      rw [hrsz] at hbal hpre1 hpre2
      dsimp only
      by_cases hsng : Size cl + 1 < (Size cr + 1) * treeGamma
      · -- single rotation
        rw [if_pos hsng]
        rw [hScl, hScr, treeGamma] at hsng
        refine ⟨_, rfl, ?_, ?_, ?_, ?_⟩
        · rw [sizeOk_node, sizeOk_node]
          exact ⟨by simp [realSize, hSl, hScl, hScr], ⟨by rw [hSl, hScl], hls, hcls⟩, hcrs⟩
        · rw [isBalanced_node, isBalanced_node, balancedAt_iff, balancedAt_iff]
          simp only [realSize]
          refine ⟨⟨by omega, by omega⟩, ⟨⟨by omega, by omega⟩, hlb, hclb⟩, hcrb⟩
        · simp [toList, List.append_assoc]
        · simp [realSize]; omega
      · -- double rotation
        rw [if_neg hsng]
        rw [hScl, hScr, treeGamma] at hsng
        cases cl with
        | nil =>
          exfalso
          simp [realSize] at hsng
          omega
        | node bl br bcs bk bv =>
          rcases sizeOk_node.1 hcls with ⟨hbcs, hbls, hbrs⟩
          rcases isBalanced_node.1 hclb with ⟨hbba, hblb, hbrb⟩
          rw [balancedAt_iff] at hbba
          have hSbl : Size bl = realSize bl := Size_eq_realSize hbls
          have hSbr : Size br = realSize br := Size_eq_realSize hbrs
          have hclsz : realSize (node bl br bcs bk bv) = realSize bl + realSize br + 1 := by
            simp [realSize]
          rw [hclsz] at hbal hsng hcba hpre1 hpre2
          dsimp only
          refine ⟨_, rfl, ?_, ?_, ?_, ?_⟩
          · rw [sizeOk_node, sizeOk_node, sizeOk_node]
            exact ⟨by simp [realSize, hSl, hSbl, hSbr, hScr],
              ⟨by rw [hSl, hSbl], hls, hbls⟩, ⟨by rw [hSbr, hScr], hbrs, hcrs⟩⟩
          · rw [isBalanced_node, isBalanced_node, isBalanced_node,
              balancedAt_iff, balancedAt_iff, balancedAt_iff]
            simp only [realSize]
            refine ⟨⟨by omega, by omega⟩, ⟨⟨by omega, by omega⟩, hlb, hblb⟩,
              ⟨⟨by omega, by omega⟩, hbrb, hcrb⟩⟩
          · simp [toList, List.append_assoc]
          · simp [realSize]; omega

theorem balance_spec_l (l r : Tree K V) (cs : Nat) (k : K) (v : V)
    (hls : sizeOk l = true) (hrs : sizeOk r = true)
    (hlb : isBalanced l = true) (hrb : isBalanced r = true)
    (hcs : cs = realSize l + realSize r)
    (hpre1 : realSize l + 1 ≤ 3 * (realSize r + 2))
    (hpre2 : realSize r + 1 ≤ 3 * (realSize l + 1)) :
    ∃ t', balance (node l r cs k v) false = some t' ∧
      sizeOk t' = true ∧ isBalanced t' = true ∧
      toList t' = toList (node l r cs k v) ∧
      realSize t' = realSize l + realSize r + 1 := by
  have hSl : Size l = realSize l := Size_eq_realSize hls
  have hSr : Size r = realSize r := Size_eq_realSize hrs
  rw [balance_node_false]
  by_cases hbal : Size l + 1 ≤ (Size r + 1) * treeDelta
  · rw [if_pos hbal]
    refine ⟨node l r cs k v, rfl, ?_, ?_, rfl, by simp [realSize]⟩
    · rw [sizeOk_node]; exact ⟨hcs, hls, hrs⟩
    · rw [isBalanced_node, balancedAt_iff]
      rw [hSl, hSr, treeDelta] at hbal
      exact ⟨⟨by omega, by omega⟩, hlb, hrb⟩
  · rw [if_neg hbal]
    rw [hSl, hSr, treeDelta] at hbal
    cases l with
    | nil =>
      exfalso
      simp [realSize] at hbal
    | node cl cr ccs ck cv =>
      rcases sizeOk_node.1 hls with ⟨hccs, hcls, hcrs⟩
      rcases isBalanced_node.1 hlb with ⟨hcba, hclb, hcrb⟩
      rw [balancedAt_iff] at hcba
      have hScl : Size cl = realSize cl := Size_eq_realSize hcls
      have hScr : Size cr = realSize cr := Size_eq_realSize hcrs
      have hlsz : realSize (node cl cr ccs ck cv) = realSize cl + realSize cr + 1 := by
        simp [realSize]
      rw [hlsz] at hbal hpre1 hpre2
      dsimp only
      by_cases hsng : Size cr + 1 < (Size cl + 1) * treeGamma
      · -- single rotation (mirrored)
        rw [if_pos hsng]
        rw [hScl, hScr, treeGamma] at hsng
        refine ⟨_, rfl, ?_, ?_, ?_, ?_⟩
        · rw [sizeOk_node, sizeOk_node]
          exact ⟨by simp [realSize, hSr, hScl, hScr]; omega, hcls,
            ⟨by rw [hSr, hScr]; omega, hcrs, hrs⟩⟩
        · rw [isBalanced_node, isBalanced_node, balancedAt_iff, balancedAt_iff]
          simp only [realSize]
          refine ⟨⟨by omega, by omega⟩, hclb, ⟨⟨by omega, by omega⟩, hcrb, hrb⟩⟩
        · simp [toList, List.append_assoc]
        · simp [realSize]; omega
      · -- double rotation (mirrored)
        rw [if_neg hsng]
        rw [hScl, hScr, treeGamma] at hsng
        cases cr with
        | nil =>
          exfalso
          simp [realSize] at hsng
          omega
        | node bl br bcs bk bv =>
          rcases sizeOk_node.1 hcrs with ⟨hbcs, hbls, hbrs⟩
          rcases isBalanced_node.1 hcrb with ⟨hbba, hblb, hbrb⟩
          rw [balancedAt_iff] at hbba
          have hSbl : Size bl = realSize bl := Size_eq_realSize hbls
          have hSbr : Size br = realSize br := Size_eq_realSize hbrs
          have hcrsz : realSize (node bl br bcs bk bv) = realSize bl + realSize br + 1 := by
            simp [realSize]
          rw [hcrsz] at hbal hsng hcba hpre1 hpre2
          dsimp only
          refine ⟨_, rfl, ?_, ?_, ?_, ?_⟩
          · rw [sizeOk_node, sizeOk_node, sizeOk_node]
            exact ⟨by simp [realSize, hSr, hSbl, hSbr, hScl]; omega,
              ⟨by rw [hSbl, hScl]; omega, hcls, hbls⟩, ⟨by rw [hSr, hSbr]; omega, hbrs, hrs⟩⟩
          · rw [isBalanced_node, isBalanced_node, isBalanced_node,
              balancedAt_iff, balancedAt_iff, balancedAt_iff]
            simp only [realSize]
            refine ⟨⟨by omega, by omega⟩, ⟨⟨by omega, by omega⟩, hclb, hblb⟩,
              ⟨⟨by omega, by omega⟩, hbrb, hrb⟩⟩
          · simp [toList, List.append_assoc]
          · simp [realSize]; omega

/-! ## Lemmas about the sorted association-list model -/

theorem mem_modelInsert {q : K × V} {k : K} {v : V} :
    ∀ {l : List (K × V)}, q ∈ modelInsert k v l → q = (k, v) ∨ q ∈ l := by
  intro l
  induction l with
  | nil => simp [modelInsert]
  | cons p rest ih =>
    obtain ⟨k', v'⟩ := p
    simp only [modelInsert]
    split_ifs with h1 h2
    · intro h
      simpa [or_assoc] using h
    · intro h
      rcases List.mem_cons.1 h with h' | h'
      · exact Or.inl h'
      · exact Or.inr (List.mem_cons_of_mem _ h')
    · intro h
      rcases List.mem_cons.1 h with h' | h'
      · exact Or.inr (h' ▸ List.mem_cons_self _ _)
      · rcases ih h' with h'' | h''
        · exact Or.inl h''
        · exact Or.inr (List.mem_cons_of_mem _ h'')

theorem map_fst_modelInsert {a k : K} {v : V} :
    ∀ {l : List (K × V)}, (a ∈ (modelInsert k v l).map Prod.fst ↔ a = k ∨ a ∈ l.map Prod.fst) := by
  intro l
  induction l with
  | nil => simp [modelInsert]
  | cons p rest ih =>
    obtain ⟨k', v'⟩ := p
    simp only [modelInsert]
    split_ifs with h1 h2
    · simp [or_assoc]
    · subst h2
      simp only [List.map_cons, List.mem_cons]
      tauto
    · simp only [List.map_cons, List.mem_cons] at ih ⊢
      rw [ih]
      tauto

theorem pairsSorted_modelInsert {k : K} {v : V} :
    ∀ {l : List (K × V)}, pairsSorted l → pairsSorted (modelInsert k v l) := by
  intro l
  induction l with
  | nil => simp [modelInsert, pairsSorted]
  | cons p rest ih =>
    obtain ⟨k', v'⟩ := p
    unfold pairsSorted at *
    rw [List.pairwise_cons]
    rintro ⟨hhead, htail⟩
    simp only [modelInsert]
    split_ifs with h1 h2
    · rw [List.pairwise_cons, List.pairwise_cons]
      refine ⟨?_, hhead, htail⟩
      intro q hq
      rcases List.mem_cons.1 hq with h' | h'
      · rw [h']
        exact h1
      · exact lt_trans h1 (hhead q h')
    · subst h2
      rw [List.pairwise_cons]
      exact ⟨hhead, htail⟩
    · rw [List.pairwise_cons]
      refine ⟨?_, ih htail⟩
      intro q hq
      rcases mem_modelInsert hq with h' | h'
      · rw [h']
        exact lt_of_le_of_ne (not_lt.1 h1) (Ne.symm h2)
      · exact hhead q h'

theorem modelInsert_append {k : K} {v : V} {ys : List (K × V)}
    (hys : ∀ p ∈ ys, k < p.1) :
    ∀ xs : List (K × V), modelInsert k v (xs ++ ys) = modelInsert k v xs ++ ys := by
  intro xs
  induction xs with
  | nil =>
    cases ys with
    | nil => rfl
    | cons q rest =>
      obtain ⟨k', v'⟩ := q
      have : k < k' := hys (k', v') (List.mem_cons_self _ _)
      simp [modelInsert, this]
  | cons p rest ih =>
    obtain ⟨k', v'⟩ := p
    simp only [List.cons_append, modelInsert]
    split_ifs <;> simp only [List.cons_append, List.append_eq] at ih ⊢ <;> rw [ih]

theorem modelInsert_append_ge {k : K} {v : V} {xs : List (K × V)}
    (hxs : ∀ p ∈ xs, p.1 < k) (ys : List (K × V)) :
    modelInsert k v (xs ++ ys) = xs ++ modelInsert k v ys := by
  induction xs with
  | nil => rfl
  | cons p rest ih =>
    obtain ⟨k', v'⟩ := p
    have h1 : k' < k := hxs (k', v') (List.mem_cons_self _ _)
    simp only [List.cons_append, modelInsert, if_neg (asymm h1), if_neg (Ne.symm h1.ne),
      List.append_eq]
    rw [ih (fun q hq => hxs q (List.mem_cons_of_mem _ hq))]

theorem modelRemove_sublist (k : K) :
    ∀ l : List (K × V), List.Sublist (modelRemove k l) l := by
  intro l
  induction l with
  | nil => simp [modelRemove]
  | cons p rest ih =>
    obtain ⟨k', v'⟩ := p
    simp only [modelRemove]
    split_ifs
    · exact List.sublist_cons_of_sublist _ (List.Sublist.refl _)
    · exact ih.cons₂ _

theorem pairsSorted_modelRemove {k : K} {l : List (K × V)} (h : pairsSorted l) :
    pairsSorted (modelRemove k l) :=
  List.Pairwise.sublist (modelRemove_sublist k l) h

theorem modelRemove_not_mem {k : K} :
    ∀ {l : List (K × V)}, k ∉ l.map Prod.fst → modelRemove k l = l := by
  intro l
  induction l with
  | nil => simp [modelRemove]
  | cons p rest ih =>
    obtain ⟨k', v'⟩ := p
    simp only [List.map_cons, List.mem_cons, not_or]
    rintro ⟨h1, h2⟩
    simp only [modelRemove, if_neg (Ne.symm h1)]
    rw [ih h2]

theorem modelRemove_append_left {k : K} {xs ys : List (K × V)}
    (hxs : k ∈ xs.map Prod.fst) :
    modelRemove k (xs ++ ys) = modelRemove k xs ++ ys := by
  induction xs with
  | nil => simp at hxs
  | cons p rest ih =>
    obtain ⟨k', v'⟩ := p
    by_cases h : k' = k
    · simp [modelRemove, h]
    · simp only [List.map_cons, List.mem_cons] at hxs
      rcases hxs with rfl | hxs
      · exact absurd rfl h
      · simp only [List.cons_append, modelRemove, if_neg h, List.append_eq]
        rw [ih hxs]

theorem modelRemove_append_right {k : K} {xs : List (K × V)}
    (hxs : ∀ p ∈ xs, p.1 ≠ k) (ys : List (K × V)) :
    modelRemove k (xs ++ ys) = xs ++ modelRemove k ys := by
  induction xs with
  | nil => rfl
  | cons p rest ih =>
    obtain ⟨k', v'⟩ := p
    have h1 : k' ≠ k := hxs (k', v') (List.mem_cons_self _ _)
    simp only [List.cons_append, modelRemove, if_neg h1, List.append_eq]
    rw [ih (fun q hq => hxs q (List.mem_cons_of_mem _ hq))]

theorem mem_modelRemove_of_ne {q : K × V} {k : K} :
    ∀ {l : List (K × V)}, q ∈ l → q.1 ≠ k → q ∈ modelRemove k l := by
  intro l
  induction l with
  | nil => simp
  | cons p rest ih =>
    obtain ⟨k', v'⟩ := p
    intro hq hne
    simp only [modelRemove]
    split_ifs with h
    · rcases List.mem_cons.1 hq with rfl | hq'
      · exact absurd h hne
      · exact hq'
    · rcases List.mem_cons.1 hq with rfl | hq'
      · exact List.mem_cons_self _ _
      · exact List.mem_cons_of_mem _ (ih hq' hne)

theorem mem_modelInsert_of_ne {q : K × V} {k : K} {v : V}
    {l : List (K × V)} (hq : q ∈ l) (hne : q.1 ≠ k) : q ∈ modelInsert k v l := by
  induction l with
  | nil => simp at hq
  | cons p rest ih =>
    obtain ⟨k', v'⟩ := p
    simp only [modelInsert]
    split_ifs with h1 h2
    · exact List.mem_cons_of_mem _ hq
    · rcases List.mem_cons.1 hq with rfl | hq'
      · exact absurd h2.symm (by simpa using hne)
      · exact List.mem_cons_of_mem _ hq'
    · rcases List.mem_cons.1 hq with rfl | hq'
      · exact List.mem_cons_self _ _
      · exact List.mem_cons_of_mem _ (ih hq')

theorem mem_modelInsert_self (k : K) (v : V) :
    ∀ l : List (K × V), (k, v) ∈ modelInsert k v l := by
  intro l
  induction l with
  | nil => simp [modelInsert]
  | cons p rest ih =>
    obtain ⟨k', v'⟩ := p
    simp only [modelInsert]
    split_ifs <;> simp [ih]

theorem modelInsert_mid_gt {k key : K} {val v : V} {xs ys : List (K × V)}
    (hxs : ∀ p ∈ xs, p.1 < k) (hkey : k < key) :
    modelInsert key val (xs ++ (k, v) :: ys) = xs ++ (k, v) :: modelInsert key val ys := by
  have hxs' : ∀ p ∈ xs ++ [(k, v)], p.1 < key := by
    intro p hp
    rcases List.mem_append.1 hp with h | h
    · exact lt_trans (hxs p h) hkey
    · simp at h
      rw [h]
      exact hkey
  have := @modelInsert_append_ge K V _ key val _ hxs' ys
  simpa [List.append_assoc] using this

theorem modelInsert_mid_lt {k key : K} {val v : V} {xs ys : List (K × V)}
    (hys : ∀ p ∈ ys, k < p.1) (hkey : key < k) :
    modelInsert key val (xs ++ (k, v) :: ys) = modelInsert key val xs ++ (k, v) :: ys := by
  have hys' : ∀ p ∈ (k, v) :: ys, key < p.1 := by
    intro p hp
    rcases List.mem_cons.1 hp with h | h
    · rw [h]
      exact hkey
    · exact lt_trans hkey (hys p h)
  exact modelInsert_append hys' xs

theorem modelInsert_mid_eq {k : K} {val v : V} {xs ys : List (K × V)}
    (hxs : ∀ p ∈ xs, p.1 < k) :
    modelInsert k val (xs ++ (k, v) :: ys) = xs ++ (k, val) :: ys := by
  rw [modelInsert_append_ge hxs]
  simp [modelInsert]

theorem isNil_iff {t : Tree K V} : isNil t = true ↔ t = nil := by
  cases t <;> simp [isNil]

theorem keys_node {l r : Tree K V} {cs : Nat} {k : K} {v : V} :
    keys (node l r cs k v) = keys l ++ k :: keys r := rfl

theorem mem_keys_fst {t : Tree K V} {p : K × V} (hp : p ∈ toList t) : p.1 ∈ keys t := by
  rw [keys_eq_map]
  exact List.mem_map_of_mem _ hp

theorem toList_fst_lt {t : Tree K V} {k : K} (h : ∀ a ∈ keys t, a < k) :
    ∀ p ∈ toList t, p.1 < k :=
  fun p hp => h p.1 (mem_keys_fst hp)

theorem toList_fst_gt {t : Tree K V} {k : K} (h : ∀ a ∈ keys t, k < a) :
    ∀ p ∈ toList t, k < p.1 :=
  fun p hp => h p.1 (mem_keys_fst hp)


theorem toList_node {l r : Tree K V} {cs : Nat} {k : K} {v : V} :
    toList (node l r cs k v) = toList l ++ (k, v) :: toList r := rfl

/-! ## Functional correctness of Insert -/

theorem Insert_spec (key : K) (val : V) :
    ∀ t : Tree K V, isBSTb t = true → sizeOk t = true → isBalanced t = true →
    ∃ t' added, Insert t key val = some (t', added) ∧
      toList t' = modelInsert key val (toList t) ∧
      sizeOk t' = true ∧ isBalanced t' = true ∧
      realSize t' = realSize t + (if added then 1 else 0) ∧
      (added = true ↔ key ∉ keys t) ∧
      (added = false → eraseValues t' = eraseValues t) := by
  intro t
  induction t with
  | nil =>
    intro _ _ _
    exact ⟨node nil nil 0 key val, true, rfl, rfl, rfl, rfl, rfl, by simp [keys], by simp⟩
  | node l r cs k v ihl ihr =>
    intro hbst hsz hbalt
    rcases isBSTb_node.1 hbst with ⟨hlk, hrk, hbstl, hbstr⟩
    rcases sizeOk_node.1 hsz with ⟨hcs, hszl, hszr⟩
    rcases isBalanced_node.1 hbalt with ⟨hba, hball, hbalr⟩
    rw [balancedAt_iff] at hba
    obtain ⟨hba1, hba2⟩ := hba
    by_cases hc0 : cmp3 k key = 0
    · have hkey : k = key := cmp3_eq_zero_iff.1 hc0
      subst hkey
      refine ⟨node l r cs k val, false, ?_, ?_, ?_, ?_, ?_, ?_, fun _ => rfl⟩
      · rw [Insert, if_pos hc0]
      · rw [toList_node, toList_node, modelInsert_mid_eq (toList_fst_lt hlk)]
      · rw [sizeOk_node]
        exact ⟨hcs, hszl, hszr⟩
      · rw [isBalanced_node, balancedAt_iff]
        exact ⟨⟨hba1, hba2⟩, hball, hbalr⟩
      · simp [realSize]
      · simp [keys_node]
    · by_cases hclt : cmp3 k key < 0
      · have hkey : k < key := cmp3_lt_zero_iff.1 hclt
        have hkeyl : key ∉ keys l := fun h => absurd (hlk _ h) (asymm hkey)
        cases r with
        | nil =>
          simp only [realSize] at hcs hba1 hba2
          obtain ⟨t', hbeq, hts, htb, htl, htr⟩ :=
            balance_spec_r l (node nil nil 0 key val) (cs + 1) k v hszl rfl hball rfl
              (by simp [realSize]; omega) (by simp [realSize]; omega)
              (by simp [realSize]; omega)
          refine ⟨t', true, ?_, ?_, hts, htb, ?_, ?_, by simp⟩
          · simp [Insert, hc0, hclt, isNil, hbeq]
          · rw [htl]
            simp only [toList]
            rw [modelInsert_mid_gt (toList_fst_lt hlk) hkey]
            simp [modelInsert]
          · rw [htr]
            simp [realSize]
            try omega
          · refine ⟨fun _ => ?_, fun _ => rfl⟩
            rw [keys_node]
            simp only [List.mem_append, List.mem_cons, not_or]
            exact ⟨hkeyl, hkey.ne', by simp [keys]⟩
        | node r1 r2 r3 r4 r5 =>
          obtain ⟨r', addedr, hIr, hTr, hSr', hBr', hRr', hAr, hEr⟩ := ihr hbstr hszr hbalr
          cases addedr with
          | true =>
            simp only [if_true] at hRr'
            obtain ⟨t', hbeq, hts, htb, htl, htr⟩ :=
              balance_spec_r l r' (cs + 1) k v hszl hSr' hball hBr'
                (by rw [hRr']; omega) (by rw [hRr']; omega) (by rw [hRr']; omega)
            refine ⟨t', true, ?_, ?_, hts, htb, ?_, ?_, by simp⟩
            · rw [Insert, if_neg hc0, if_pos hclt,
                if_neg (by simp [isNil] : ¬isNil (node r1 r2 r3 r4 r5) = true), hIr]
              simp [hbeq]
            · rw [htl, toList_node, toList_node,
                modelInsert_mid_gt (toList_fst_lt hlk) hkey, ← hTr]
            · rw [htr, hRr']
              simp [realSize]
              try omega
            · have hkr : key ∉ keys (node r1 r2 r3 r4 r5) := hAr.1 rfl
              refine ⟨fun _ => ?_, fun _ => rfl⟩
              rw [keys_node]
              simp only [List.mem_append, List.mem_cons, not_or]
              exact ⟨hkeyl, hkey.ne', hkr⟩
          | false =>
            simp at hRr'
            have hkinr : key ∈ keys (node r1 r2 r3 r4 r5) := by
              by_contra h
              simpa using hAr.2 h
            refine ⟨node l r' cs k v, false, ?_, ?_, ?_, ?_, ?_, ?_, ?_⟩
            · rw [Insert, if_neg hc0, if_pos hclt,
                if_neg (by simp [isNil] : ¬isNil (node r1 r2 r3 r4 r5) = true), hIr]
              simp
            · rw [toList_node, toList_node,
                modelInsert_mid_gt (toList_fst_lt hlk) hkey, ← hTr]
            · rw [sizeOk_node]
              exact ⟨by omega, hszl, hSr'⟩
            · rw [isBalanced_node, balancedAt_iff]
              exact ⟨⟨by omega, by omega⟩, hball, hBr'⟩
            · simp [realSize] at hRr' ⊢
              omega
            · simp only [Bool.false_eq_true, false_iff, not_not]
              rw [keys_node]
              simp only [List.mem_append, List.mem_cons]
              exact Or.inr (Or.inr hkinr)
            · intro _
              simp [eraseValues, hEr rfl]
      · have hkey : key < k := lt_of_cmp3_pos hc0 hclt
        have hkeyr : key ∉ keys r := fun h => absurd (hrk _ h) (asymm hkey)
        cases l with
        | nil =>
          simp only [realSize] at hcs hba1 hba2
          obtain ⟨t', hbeq, hts, htb, htl, htr⟩ :=
            balance_spec_l (node nil nil 0 key val) r (cs + 1) k v rfl hszr rfl hbalr
              (by simp [realSize]; omega) (by simp [realSize]; omega)
              (by simp [realSize]; omega)
          refine ⟨t', true, ?_, ?_, hts, htb, ?_, ?_, by simp⟩
          · simp [Insert, hc0, hclt, isNil, hbeq]
          · rw [htl]
            simp only [toList]
            rw [modelInsert_mid_lt (toList_fst_gt hrk) hkey]
            simp [modelInsert]
          · rw [htr]
            simp [realSize]
            try omega
          · refine ⟨fun _ => ?_, fun _ => rfl⟩
            rw [keys_node]
            simp only [List.mem_append, List.mem_cons, not_or]
            exact ⟨by simp [keys], hkey.ne, hkeyr⟩
        | node l1 l2 l3 l4 l5 =>
          obtain ⟨l', addedl, hIl, hTl, hSl', hBl', hRl', hAl, hEl⟩ := ihl hbstl hszl hball
          cases addedl with
          | true =>
            simp only [if_true] at hRl'
            obtain ⟨t', hbeq, hts, htb, htl, htr⟩ :=
              balance_spec_l l' r (cs + 1) k v hSl' hszr hBl' hbalr
                (by rw [hRl']; omega) (by rw [hRl']; omega) (by rw [hRl']; omega)
            refine ⟨t', true, ?_, ?_, hts, htb, ?_, ?_, by simp⟩
            · rw [Insert, if_neg hc0, if_neg hclt,
                if_neg (by simp [isNil] : ¬isNil (node l1 l2 l3 l4 l5) = true), hIl]
              simp [hbeq]
            · rw [htl, toList_node, toList_node,
                modelInsert_mid_lt (toList_fst_gt hrk) hkey, ← hTl]
            · rw [htr, hRl']
              simp [realSize]
              try omega
            · have hkl : key ∉ keys (node l1 l2 l3 l4 l5) := hAl.1 rfl
              refine ⟨fun _ => ?_, fun _ => rfl⟩
              rw [keys_node]
              simp only [List.mem_append, List.mem_cons, not_or]
              exact ⟨hkl, hkey.ne, hkeyr⟩
          | false =>
            simp at hRl'
            have hkinl : key ∈ keys (node l1 l2 l3 l4 l5) := by
              by_contra h
              simpa using hAl.2 h
            refine ⟨node l' r cs k v, false, ?_, ?_, ?_, ?_, ?_, ?_, ?_⟩
            · rw [Insert, if_neg hc0, if_neg hclt,
                if_neg (by simp [isNil] : ¬isNil (node l1 l2 l3 l4 l5) = true), hIl]
              simp
            · rw [toList_node, toList_node,
                modelInsert_mid_lt (toList_fst_gt hrk) hkey, ← hTl]
            · rw [sizeOk_node]
              exact ⟨by omega, hSl', hszr⟩
            · rw [isBalanced_node, balancedAt_iff]
              exact ⟨⟨by omega, by omega⟩, hBl', hbalr⟩
            · simp [realSize] at hRl' ⊢
              omega
            · simp only [Bool.false_eq_true, false_iff, not_not]
              rw [keys_node]
              simp only [List.mem_append, List.mem_cons]
              exact Or.inl hkinl
            · intro _
              simp [eraseValues, hEl rfl]

/-! ## Traversal characterization: `forEachNode` is a stop-early fold over the
in-order node list, and `top` collects a prefix of it. -/

theorem nodesInOrder_node {l r : Tree K V} {cs : Nat} {k : K} {v : V} :
    nodesInOrder (node l r cs k v) = nodesInOrder l ++ node l r cs k v :: nodesInOrder r := rfl

theorem foldStop_append {σ α : Type} (f : σ → α → σ × Bool) (xs ys : List α) :
    ∀ s : σ, foldStop f s (xs ++ ys) =
      if (foldStop f s xs).2 then foldStop f (foldStop f s xs).1 ys else foldStop f s xs := by
  induction xs with
  | nil => intro s; simp [foldStop]
  | cons a as ih =>
    intro s
    simp only [List.cons_append, foldStop]
    by_cases h : (f s a).2
    · simp only [h, if_true]
      exact ih (f s a).1
    · simp [h]

theorem forEachNode_false_eq {σ : Type} (f : σ → Tree K V → σ × Bool) :
    ∀ (t : Tree K V) (s : σ), forEachNode f false t s = foldStop f s (nodesInOrder t) := by
  intro t
  induction t with
  | nil => intro s; rfl
  | node l r cs k v ihl ihr =>
    intro s
    rw [forEachNode, nodesInOrder_node, foldStop_append, ← ihl s]
    cases hfe : forEachNode f false l s with
    | mk s1 c1 =>
      cases c1 with
      | false => simp
      | true =>
        simp only [foldStop, Bool.not_true, Bool.false_eq_true, if_false, if_true]
        cases hq : f s1 (node l r cs k v) with
        | mk s2 c2 =>
          cases c2 with
          | false => simp
          | true => simpa using ihr s2

theorem forEachNode_true_eq {σ : Type} (f : σ → Tree K V → σ × Bool) :
    ∀ (t : Tree K V) (s : σ), forEachNode f true t s = foldStop f s (nodesInOrder t).reverse := by
  intro t
  induction t with
  | nil => intro s; rfl
  | node l r cs k v ihl ihr =>
    intro s
    have hrev : (nodesInOrder (node l r cs k v)).reverse =
        (nodesInOrder r).reverse ++ node l r cs k v :: (nodesInOrder l).reverse := by
      rw [nodesInOrder_node]
      simp
    rw [forEachNode, hrev, foldStop_append, ← ihr s]
    cases hfe : forEachNode f true r s with
    | mk s1 c1 =>
      cases c1 with
      | false => simp
      | true =>
        simp only [foldStop, Bool.not_true, Bool.false_eq_true, if_false, if_true]
        cases hq : f s1 (node l r cs k v) with
        | mk s2 c2 =>
          cases c2 with
          | false => simp
          | true => simpa using ihl s2

theorem foldStop_collect_pos {α S : Type} (f : α → S) (n : Int) :
    ∀ (l : List α) (res : List S), (res.length : Int) < n →
      (foldStop (fun acc a => (acc ++ [f a], decide ((acc.length : Int) + 1 < n))) res l).1
        = res ++ (l.map f).take (n - res.length).toNat := by
  intro l
  induction l with
  | nil =>
    intro res h
    simp [foldStop]
  | cons a as ih =>
    intro res h
    rw [foldStop]
    by_cases h2 : (res.length : Int) + 1 < n
    · simp only [decide_eq_true h2, if_true]
      rw [ih (res ++ [f a]) (by simpa using h2)]
      have hlen : ((res ++ [f a]).length : Int) = (res.length : Int) + 1 := by simp
      rw [hlen]
      have hn1 : (n - res.length).toNat = (n - (res.length + 1)).toNat + 1 := by omega
      rw [hn1]
      simp [List.append_assoc]
    · simp only [decide_eq_false h2, Bool.false_eq_true, if_false]
      have hn1 : (n - res.length).toNat = 1 := by omega
      rw [hn1]
      simp

theorem foldStop_collect_nonpos {α S : Type} (f : α → S) (n : Int) (hn : n ≤ 0) :
    ∀ (l : List α) (res : List S),
      (foldStop (fun acc a => (acc ++ [f a], decide ((acc.length : Int) + 1 < n))) res l).1
        = res ++ (l.map f).take 1 := by
  intro l res
  cases l with
  | nil => simp [foldStop]
  | cons a as =>
    rw [foldStop]
    have h2 : ¬((res.length : Int) + 1 < n) := by omega
    simp [decide_eq_false h2]

theorem top_eq (t : Tree K V) (n : Int) (rev : Bool) (f : Tree K V → R) :
    top t n rev f =
      ((if rev then (nodesInOrder t).reverse else nodesInOrder t).map f).take
        (if 0 < n then n.toNat else 1) := by
  cases t with
  | nil => cases rev <;> simp [top, nodesInOrder]
  | node l r cs k v =>
    rw [top]
    cases rev with
    | false =>
      rw [forEachNode_false_eq]
      by_cases hn : 0 < n
      · rw [foldStop_collect_pos f n _ ([] : List R) (by simpa using hn)]
        simp [hn]
      · rw [foldStop_collect_nonpos f n (by omega)]
        simp [hn]
    | true =>
      rw [forEachNode_true_eq]
      by_cases hn : 0 < n
      · rw [foldStop_collect_pos f n _ ([] : List R) (by simpa using hn)]
        simp [hn]
      · rw [foldStop_collect_nonpos f n (by omega)]
        simp [hn]

theorem map_identity (l : List (Tree K V)) : l.map identity = l := by
  induction l with
  | nil => rfl
  | cons a as ih => simp [identity, ih]

theorem nodesInOrder_first :
    ∀ t : Tree K V, t ≠ nil →
      ∃ a rest, nodesInOrder t = a :: rest ∧
        ∃ m1 m2 m3 mk mv, a = node m1 m2 m3 mk mv ∧
          ∃ tl2, toList t = (mk, mv) :: tl2 := by
  intro t
  induction t with
  | nil => intro h; exact absurd rfl h
  | node l r cs k v ihl ihr =>
    intro _
    cases l with
    | nil =>
      refine ⟨node nil r cs k v, nodesInOrder r, by simp [nodesInOrder], ?_⟩
      exact ⟨nil, r, cs, k, v, rfl, toList r, by simp [toList]⟩
    | node l1 l2 l3 l4 l5 =>
      obtain ⟨a, rest, hn, m1, m2, m3, mk, mv, ha, tl2, htl⟩ := ihl (by simp)
      refine ⟨a, rest ++ node (node l1 l2 l3 l4 l5) r cs k v :: nodesInOrder r, ?_,
        m1, m2, m3, mk, mv, ha, tl2 ++ (k, v) :: toList r, ?_⟩
      · rw [nodesInOrder_node, hn]
        simp
      · rw [toList_node, htl]
        simp

theorem LeastNode_first (t : Tree K V) (hne : t ≠ nil) :
    ∃ m1 m2 m3 mk mv, LeastNode t = node m1 m2 m3 mk mv ∧
      ∃ tl2, toList t = (mk, mv) :: tl2 := by
  obtain ⟨a, rest, hn, m1, m2, m3, mk, mv, ha, tl2, htl⟩ := nodesInOrder_first t hne
  refine ⟨m1, m2, m3, mk, mv, ?_, tl2, htl⟩
  rw [LeastNode, Least, top_eq, hn]
  simp [ha, identity, map_identity (a :: rest)]

theorem modelRemove_mid_gt {k key : K} {v : V} {xs ys : List (K × V)}
    (hxs : ∀ p ∈ xs, p.1 < k) (hkey : k < key) :
    modelRemove key (xs ++ (k, v) :: ys) = xs ++ (k, v) :: modelRemove key ys := by
  have hxs' : ∀ p ∈ xs ++ [(k, v)], p.1 ≠ key := by
    intro p hp
    rcases List.mem_append.1 hp with h | h
    · exact (lt_trans (hxs p h) hkey).ne
    · simp at h
      rw [h]
      exact hkey.ne
  have := modelRemove_append_right hxs' ys
  simpa [List.append_assoc] using this

theorem modelRemove_mid_lt {k key : K} {v : V} {xs ys : List (K × V)}
    (hys : ∀ p ∈ ys, k < p.1) (hkey : key < k) :
    modelRemove key (xs ++ (k, v) :: ys) = modelRemove key xs ++ (k, v) :: ys := by
  by_cases hmem : key ∈ xs.map Prod.fst
  · exact modelRemove_append_left hmem
  · rw [modelRemove_not_mem hmem]
    have hys' : ∀ p ∈ (k, v) :: ys, p.1 ≠ key := by
      intro p hp
      rcases List.mem_cons.1 hp with h | h
      · rw [h]
        exact hkey.ne'
      · exact (lt_trans hkey (hys p h)).ne'
    have hall : key ∉ (xs ++ (k, v) :: ys).map Prod.fst := by
      simp only [List.map_append, List.mem_append, not_or]
      refine ⟨hmem, ?_⟩
      simp only [List.mem_map, not_exists, not_and]
      intro p hp h
      exact hys' p hp h
    rw [modelRemove_not_mem hall]

/-! ## Functional correctness of Remove -/

theorem Remove_spec :
    ∀ (t : Tree K V) (key : K), isBSTb t = true → sizeOk t = true → isBalanced t = true →
    ∃ t' removed, Remove t key = some (t', removed) ∧
      toList t' = modelRemove key (toList t) ∧
      sizeOk t' = true ∧ isBalanced t' = true ∧
      realSize t' + (if removed then 1 else 0) = realSize t ∧
      (removed = true ↔ key ∈ keys t) ∧
      (removed = false → t' = t) := by
  intro t
  induction t with
  | nil =>
    intro key _ _ _
    exact ⟨nil, false, rfl, rfl, rfl, rfl, by simp [realSize], by simp [keys], fun _ => rfl⟩
  | node l r cs k v ihl ihr =>
    intro key hbst hsz hbalt
    rcases isBSTb_node.1 hbst with ⟨hlk, hrk, hbstl, hbstr⟩
    rcases sizeOk_node.1 hsz with ⟨hcs, hszl, hszr⟩
    rcases isBalanced_node.1 hbalt with ⟨hba, hball, hbalr⟩
    rw [balancedAt_iff] at hba
    obtain ⟨hba1, hba2⟩ := hba
    by_cases hc0 : cmp3 k key = 0
    · have hkey : k = key := cmp3_eq_zero_iff.1 hc0
      subst hkey
      cases l with
      | nil =>
        cases r with
        | nil =>
          refine ⟨nil, true, ?_, ?_, rfl, rfl, ?_, ?_, by simp⟩
          · rw [Remove, if_pos hc0]
            simp [isNil]
          · simp [toList, modelRemove]
          · simp [realSize]
          · simp [keys_node, keys]
        | node r1 r2 r3 r4 r5 =>
          refine ⟨node r1 r2 r3 r4 r5, true, ?_, ?_, hszr, hbalr, ?_, ?_, by simp⟩
          · rw [Remove, if_pos hc0]
            simp [isNil]
          · simp [toList_node, toList, modelRemove]
          · simp [realSize]
            try omega
          · simp [keys_node]
      | node l1 l2 l3 l4 l5 =>
        cases r with
        | nil =>
          refine ⟨node l1 l2 l3 l4 l5, true, ?_, ?_, hszl, hball, ?_, ?_, by simp⟩
          · rw [Remove, if_pos hc0]
            simp [isNil]
          · have h1 : toList (node (node l1 l2 l3 l4 l5) nil cs k v)
                = toList (node l1 l2 l3 l4 l5) ++ (k, v) :: toList (nil : Tree K V) := toList_node
            rw [h1, modelRemove_append_right (fun p hp => (toList_fst_lt hlk p hp).ne)]
            simp [toList, modelRemove]
          · simp [realSize]
            try omega
          · simp [keys_node]
        | node r1 r2 r3 r4 r5 =>
          obtain ⟨m1, m2, m3, mk, mv, hLN, rest, hTr⟩ :=
            LeastNode_first (node r1 r2 r3 r4 r5) (by simp)
          have hmk_mem : mk ∈ keys (node r1 r2 r3 r4 r5) := by
            rw [keys_eq_map, hTr]
            simp
          obtain ⟨r', removedr, hIr, hTr', hSr', hBr', hRr', hAr, hEr⟩ :=
            ihr mk hbstr hszr hbalr
          have hrt : removedr = true := hAr.2 hmk_mem
          subst hrt
          simp at hRr'
          obtain ⟨t', hbeq, hts, htb, htl2, htr2⟩ :=
            balance_spec_l (node l1 l2 l3 l4 l5) r' (cs - 1) mk mv hszl hSr' hball hBr'
              (by omega) (by omega) (by omega)
          refine ⟨t', true, ?_, ?_, hts, htb, ?_, ?_, by simp⟩
          · rw [Remove]
            simp [hc0, isNil, hLN, hIr, hbeq]
          · have h1 : toList (node (node l1 l2 l3 l4 l5) (node r1 r2 r3 r4 r5) cs k v)
                = toList (node l1 l2 l3 l4 l5) ++ (k, v) :: toList (node r1 r2 r3 r4 r5) :=
              toList_node
            have h2 : toList (node (node l1 l2 l3 l4 l5) r' (cs - 1) mk mv)
                = toList (node l1 l2 l3 l4 l5) ++ (mk, mv) :: toList r' := toList_node
            rw [htl2, h2, h1, hTr', hTr,
              modelRemove_append_right (fun p hp => (toList_fst_lt hlk p hp).ne)]
            simp [modelRemove]
          · rw [htr2]
            simp [realSize] at hRr' ⊢
            omega
          · simp [keys_node]
    · by_cases hclt : cmp3 k key < 0
      · have hkey : k < key := cmp3_lt_zero_iff.1 hclt
        obtain ⟨r', removedr, hIr, hTr', hSr', hBr', hRr', hAr, hEr⟩ :=
          ihr key hbstr hszr hbalr
        cases removedr with
        | true =>
          simp at hRr'
          obtain ⟨t', hbeq, hts, htb, htl2, htr2⟩ :=
            balance_spec_l l r' (cs - 1) k v hszl hSr' hball hBr'
              (by omega) (by omega) (by omega)
          refine ⟨t', true, ?_, ?_, hts, htb, ?_, ?_, by simp⟩
          · rw [Remove, if_neg hc0, if_pos hclt, hIr]
            simp [hbeq]
          · rw [htl2, toList_node, toList_node, hTr',
              modelRemove_mid_gt (toList_fst_lt hlk) hkey]
          · rw [htr2]
            simp [realSize]
            try omega
          · refine ⟨fun _ => ?_, fun _ => rfl⟩
            rw [keys_node]
            simp only [List.mem_append, List.mem_cons]
            exact Or.inr (Or.inr (hAr.1 rfl))
        | false =>
          have hr'eq : r' = r := hEr rfl
          rw [hr'eq] at hIr
          have hknr : key ∉ keys r := fun h => by simpa using hAr.2 h
          have hnot : key ∉ keys (node l r cs k v) := by
            rw [keys_node]
            simp only [List.mem_append, List.mem_cons, not_or]
            exact ⟨fun h => absurd (hlk _ h) (asymm hkey), hkey.ne', hknr⟩
          refine ⟨node l r cs k v, false, ?_, ?_, hsz, hbalt, ?_, ?_, fun _ => rfl⟩
          · rw [Remove, if_neg hc0, if_pos hclt, hIr]
            simp
          · rw [modelRemove_not_mem (by rw [← keys_eq_map]; exact hnot)]
          · simp
          · simp [hnot]
      · have hkey : key < k := lt_of_cmp3_pos hc0 hclt
        obtain ⟨l', removedl, hIl, hTl', hSl', hBl', hRl', hAl, hEl⟩ :=
          ihl key hbstl hszl hball
        cases removedl with
        | true =>
          simp at hRl'
          obtain ⟨t', hbeq, hts, htb, htl2, htr2⟩ :=
            balance_spec_r l' r (cs - 1) k v hSl' hszr hBl' hbalr
              (by omega) (by omega) (by omega)
          refine ⟨t', true, ?_, ?_, hts, htb, ?_, ?_, by simp⟩
          · rw [Remove, if_neg hc0, if_neg hclt, hIl]
            simp [hbeq]
          · rw [htl2, toList_node, toList_node, hTl',
              modelRemove_mid_lt (toList_fst_gt hrk) hkey]
          · rw [htr2]
            simp [realSize]
            try omega
          · refine ⟨fun _ => ?_, fun _ => rfl⟩
            rw [keys_node]
            simp only [List.mem_append, List.mem_cons]
            exact Or.inl (hAl.1 rfl)
        | false =>
          have hl'eq : l' = l := hEl rfl
          rw [hl'eq] at hIl
          have hknl : key ∉ keys l := fun h => by simpa using hAl.2 h
          have hnot : key ∉ keys (node l r cs k v) := by
            rw [keys_node]
            simp only [List.mem_append, List.mem_cons, not_or]
            exact ⟨hknl, hkey.ne, fun h => absurd (hrk _ h) (asymm hkey)⟩
          refine ⟨node l r cs k v, false, ?_, ?_, hsz, hbalt, ?_, ?_, fun _ => rfl⟩
          · rw [Remove, if_neg hc0, if_neg hclt, hIl]
            simp
          · rw [modelRemove_not_mem (by rw [← keys_eq_map]; exact hnot)]
          · simp
          · simp [hnot]

/-! ## Lookup correctness -/

theorem GetNode_not_mem : ∀ (t : Tree K V) (key : K), key ∉ keys t → GetNode t key = nil := by
  intro t
  induction t with
  | nil => intro key _; rfl
  | node l r cs k v ihl ihr =>
    intro key hmem
    rw [keys_node] at hmem
    simp only [List.mem_append, List.mem_cons, not_or] at hmem
    obtain ⟨hl, hk, hr⟩ := hmem
    rw [GetNode, if_neg (fun h => hk ((cmp3_eq_zero_iff.1 h).symm))]
    split_ifs with h
    · exact ihr key hr
    · exact ihl key hl

theorem GetNode_mem : ∀ (t : Tree K V) (key : K) (v : V), isBSTb t = true →
    (key, v) ∈ toList t → ∃ gl gr gcs, GetNode t key = node gl gr gcs key v := by
  intro t
  induction t with
  | nil => intro key v _ h; simp [toList] at h
  | node l r cs k v0 ihl ihr =>
    intro key v hbst hmem
    rcases isBSTb_node.1 hbst with ⟨hlk, hrk, hbstl, hbstr⟩
    rw [toList_node] at hmem
    rcases List.mem_append.1 hmem with hm | hm
    · have hklt : key < k := hlk _ (mem_keys_fst hm)
      rw [GetNode, if_neg (fun h => absurd (cmp3_eq_zero_iff.1 h) hklt.ne'),
        if_neg (fun h => absurd (cmp3_lt_zero_iff.1 h) (asymm hklt))]
      exact ihl key v hbstl hm
    · rcases List.mem_cons.1 hm with hm' | hm'
      · have hk : key = k := congrArg Prod.fst hm'
        have hv : v = v0 := congrArg Prod.snd hm'
        subst hk
        subst hv
        rw [GetNode, if_pos (cmp3_eq_zero_iff.2 rfl)]
        exact ⟨l, r, cs, rfl⟩
      · have hkgt : k < key := hrk _ (mem_keys_fst hm')
        rw [GetNode, if_neg (fun h => absurd (cmp3_eq_zero_iff.1 h) hkgt.ne),
          if_pos (cmp3_lt_zero_iff.2 hkgt)]
        exact ihr key v hbstr hm'

theorem Get_mem [Inhabited V] {t : Tree K V} {key : K} {v : V} (hbst : isBSTb t = true)
    (hmem : (key, v) ∈ toList t) : Get t key = v := by
  obtain ⟨gl, gr, gcs, hg⟩ := GetNode_mem t key v hbst hmem
  rw [Get, hg, RootValue]

theorem Get_not_mem [Inhabited V] {t : Tree K V} {key : K} (h : key ∉ keys t) :
    Get t key = default := by
  rw [Get, GetNode_not_mem t key h, RootValue]

/-! ## Running call sequences from the empty tree -/

theorem buildFrom_append :
    ∀ (xs ys : List (Op K V)) (t : Tree K V),
      buildFrom t (xs ++ ys) =
        match buildFrom t xs with
        | none => none
        | some t' => buildFrom t' ys := by
  intro xs
  induction xs with
  | nil => intro ys t; rfl
  | cons op rest ih =>
    intro ys t
    rw [List.cons_append, buildFrom, buildFrom]
    cases applyOp t op with
    | none => rfl
    | some t' => exact ih ys t'

theorem modelRunFrom_append :
    ∀ (xs ys : List (Op K V)) (m : List (K × V)),
      modelRunFrom m (xs ++ ys) = modelRunFrom (modelRunFrom m xs) ys := by
  intro xs
  induction xs with
  | nil => intro ys m; rfl
  | cons op rest ih =>
    intro ys m
    rw [List.cons_append, modelRunFrom, modelRunFrom]
    exact ih ys (modelStep m op)

theorem buildFrom_inv :
    ∀ (ops : List (Op K V)) (t : Tree K V),
      isBSTb t = true → sizeOk t = true → isBalanced t = true →
      ∃ t', buildFrom t ops = some t' ∧ isBSTb t' = true ∧ sizeOk t' = true ∧
        isBalanced t' = true ∧ toList t' = modelRunFrom (toList t) ops := by
  intro ops
  induction ops with
  | nil => intro t h1 h2 h3; exact ⟨t, rfl, h1, h2, h3, rfl⟩
  | cons op rest ih =>
    intro t h1 h2 h3
    cases op with
    | ins k v =>
      obtain ⟨t1, added, hIeq, hT, hS, hB, -, -, -⟩ := Insert_spec k v t h1 h2 h3
      have hbst1 : isBSTb t1 = true := by
        rw [isBSTb_iff_pairsSorted, hT]
        exact pairsSorted_modelInsert ((isBSTb_iff_pairsSorted t).1 h1)
      obtain ⟨t2, hrest, g1, g2, g3, g4⟩ := ih t1 hbst1 hS hB
      refine ⟨t2, ?_, g1, g2, g3, ?_⟩
      · rw [buildFrom]
        simp [applyOp, hIeq, hrest]
      · rw [g4, hT]
        rfl
    | del k =>
      obtain ⟨t1, removed, hReq, hT, hS, hB, -, -, -⟩ := Remove_spec t k h1 h2 h3
      have hbst1 : isBSTb t1 = true := by
        rw [isBSTb_iff_pairsSorted, hT]
        exact pairsSorted_modelRemove ((isBSTb_iff_pairsSorted t).1 h1)
      obtain ⟨t2, hrest, g1, g2, g3, g4⟩ := ih t1 hbst1 hS hB
      refine ⟨t2, ?_, g1, g2, g3, ?_⟩
      · rw [buildFrom]
        simp [applyOp, hReq, hrest]
      · rw [g4, hT]
        rfl

theorem build_inv (ops : List (Op K V)) :
    ∃ t, build ops = some t ∧ isBSTb t = true ∧ sizeOk t = true ∧ isBalanced t = true ∧
      toList t = modelRun ops := by
  exact buildFrom_inv ops nil rfl rfl rfl

theorem build_inv_of_eq {ops : List (Op K V)} {t : Tree K V} (h : build ops = some t) :
    isBSTb t = true ∧ sizeOk t = true ∧ isBalanced t = true ∧ toList t = modelRun ops := by
  obtain ⟨t', h', g1, g2, g3, g4⟩ := build_inv ops
  rw [h] at h'
  obtain rfl : t = t' := by injection h'
  exact ⟨g1, g2, g3, g4⟩

/-! ## Safety: no public operation ever reaches a nil-dereference (`none`) -/

theorem rotation_guard_c {x c : Tree K V} (h : ¬(Size x + 1) * treeDelta ≥ Size c + 1) :
    c ≠ nil := by
  intro hnil
  subst hnil
  apply h
  have h0 : Size (nil : Tree K V) = 0 := rfl
  rw [h0, treeDelta]
  omega

theorem rotation_guard_b {b z : Tree K V} (h : ¬Size b + 1 < (Size z + 1) * treeGamma) :
    b ≠ nil := by
  intro hnil
  subst hnil
  apply h
  have h0 : Size (nil : Tree K V) = 0 := rfl
  rw [h0, treeGamma]
  omega

theorem balance_isSome (t : Tree K V) (rh : Bool) (h : t ≠ nil) :
    (balance t rh).isSome = true := by
  cases t with
  | nil => exact absurd rfl h
  | node tl tr tcs tk tv =>
    cases rh with
    | true =>
      rw [balance_node_true]
      split_ifs with h1
      · rfl
      · cases tr with
        | nil =>
          exfalso
          have h0 : Size (nil : Tree K V) = 0 := rfl
          rw [h0, treeDelta] at h1
          omega
        | node cl cr ccs ck cv =>
          dsimp only
          split_ifs with h2
          · rfl
          · cases cl with
            | nil =>
              exfalso
              have h0 : Size (nil : Tree K V) = 0 := rfl
              rw [h0, treeGamma] at h2
              omega
            | node bl br bcs bk bv => rfl
    | false =>
      rw [balance_node_false]
      split_ifs with h1
      · rfl
      · cases tl with
        | nil =>
          exfalso
          have h0 : Size (nil : Tree K V) = 0 := rfl
          rw [h0, treeDelta] at h1
          omega
        | node cl cr ccs ck cv =>
          dsimp only
          split_ifs with h2
          · rfl
          · cases cr with
            | nil =>
              exfalso
              have h0 : Size (nil : Tree K V) = 0 := rfl
              rw [h0, treeGamma] at h2
              omega
            | node bl br bcs bk bv => rfl

theorem Insert_isSome : ∀ (t : Tree K V) (key : K) (val : V),
    (Insert t key val).isSome = true := by
  intro t
  induction t with
  | nil => intro key val; rfl
  | node l r cs k v ihl ihr =>
    intro key val
    rw [Insert]
    split_ifs with h1 h2 h3 _ h4
    · rfl
    · obtain ⟨u, hu⟩ := Option.isSome_iff_exists.1
        (balance_isSome (node l (node nil nil 0 key val) (cs + 1) k v) true (by simp))
      simp [hu]
    · cases hIr : Insert r key val with
      | none =>
        have h5 := ihr key val
        rw [hIr] at h5
        exact absurd h5 (by simp)
      | some p =>
        obtain ⟨next, added⟩ := p
        cases added with
        | true =>
          obtain ⟨u, hu⟩ := Option.isSome_iff_exists.1
            (balance_isSome (node l next (cs + 1) k v) true (by simp))
          simp [hu]
        | false => simp
    · obtain ⟨u, hu⟩ := Option.isSome_iff_exists.1
        (balance_isSome (node (node nil nil 0 key val) r (cs + 1) k v) false (by simp))
      simp [hu]
    · cases hIl : Insert l key val with
      | none =>
        have h5 := ihl key val
        rw [hIl] at h5
        exact absurd h5 (by simp)
      | some p =>
        obtain ⟨next, added⟩ := p
        cases added with
        | true =>
          obtain ⟨u, hu⟩ := Option.isSome_iff_exists.1
            (balance_isSome (node next r (cs + 1) k v) false (by simp))
          simp [hu]
        | false => simp

theorem Remove_isSome : ∀ (t : Tree K V) (key : K), (Remove t key).isSome = true := by
  intro t
  induction t with
  | nil => intro key; rfl
  | node l r cs k v ihl ihr =>
    intro key
    rw [Remove]
    split_ifs with h1 h2 h3 h4
    · rfl
    · obtain ⟨m1, m2, m3, mk, mv, hLN, rest, hTr⟩ :=
        LeastNode_first r (by
          intro hnil
          subst hnil
          simp [isNil] at h3)
      rw [hLN]
      cases hRr : Remove r mk with
      | none =>
        have h5 := ihr mk
        rw [hRr] at h5
        exact absurd h5 (by simp)
      | some p =>
        obtain ⟨newR, b⟩ := p
        obtain ⟨u, hu⟩ := Option.isSome_iff_exists.1
          (balance_isSome (node l newR (cs - 1) mk mv) false (by simp))
        simp [hRr, hu]
    · rfl
    · rfl
    · cases hRr : Remove r key with
      | none =>
        have h5 := ihr key
        rw [hRr] at h5
        exact absurd h5 (by simp)
      | some p =>
        obtain ⟨newNext, removed⟩ := p
        cases removed with
        | true =>
          obtain ⟨u, hu⟩ := Option.isSome_iff_exists.1
            (balance_isSome (node l newNext (cs - 1) k v) false (by simp))
          simp [hu]
        | false => simp
    · cases hRl : Remove l key with
      | none =>
        have h5 := ihl key
        rw [hRl] at h5
        exact absurd h5 (by simp)
      | some p =>
        obtain ⟨newNext, removed⟩ := p
        cases removed with
        | true =>
          obtain ⟨u, hu⟩ := Option.isSome_iff_exists.1
            (balance_isSome (node newNext r (cs - 1) k v) true (by simp))
          simp [hu]
        | false => simp

/-! ## Remove of an absent key leaves the tree untouched (no invariant needed) -/

theorem Remove_not_mem : ∀ (t : Tree K V) (key : K),
    key ∉ keys t → Remove t key = some (t, false) := by
  intro t
  induction t with
  | nil => intro key _; rfl
  | node l r cs k v ihl ihr =>
    intro key hmem
    rw [keys_node] at hmem
    simp only [List.mem_append, List.mem_cons, not_or] at hmem
    obtain ⟨hl, hk, hr⟩ := hmem
    rw [Remove, if_neg (fun h => hk ((cmp3_eq_zero_iff.1 h).symm))]
    split_ifs with h
    · rw [ihr key hr]
      simp
    · rw [ihl key hl]
      simp

/-! ## Characterizing the bounded extraction operations -/

theorem map_getKeyFunc [Inhabited K] : ∀ t : Tree K V, (nodesInOrder t).map getKeyFunc = keys t := by
  intro t
  induction t with
  | nil => rfl
  | node l r cs k v ihl ihr =>
    rw [nodesInOrder_node, keys_node]
    simp [getKeyFunc, RootKey, ihl, ihr]

theorem map_getValFunc [Inhabited V] :
    ∀ t : Tree K V, (nodesInOrder t).map getValFunc = (toList t).map Prod.snd := by
  intro t
  induction t with
  | nil => rfl
  | node l r cs k v ihl ihr =>
    rw [nodesInOrder_node, toList_node]
    simp [getValFunc, RootValue, ihl, ihr]

theorem nodesInOrder_length : ∀ t : Tree K V, (nodesInOrder t).length = realSize t := by
  intro t
  induction t with
  | nil => rfl
  | node l r cs k v ihl ihr =>
    rw [nodesInOrder_node, realSize]
    simp [ihl, ihr]
    omega

theorem Least_eq (t : Tree K V) (n : Int) (hn : 0 < n) :
    Least t n = (nodesInOrder t).take n.toNat := by
  rw [Least, top_eq, if_pos hn]
  simp [map_identity]

theorem LeastKeys_eq [Inhabited K] (t : Tree K V) (n : Int) (hn : 0 < n) :
    LeastKeys t n = (keys t).take n.toNat := by
  rw [LeastKeys, top_eq, if_pos hn]
  simp [map_getKeyFunc]

theorem LeastValues_eq [Inhabited V] (t : Tree K V) (n : Int) (hn : 0 < n) :
    LeastValues t n = ((toList t).map Prod.snd).take n.toNat := by
  rw [LeastValues, top_eq, if_pos hn]
  simp [map_getValFunc]

theorem Greatest_eq (t : Tree K V) (n : Int) (hn : 0 < n) :
    Greatest t n = (nodesInOrder t).reverse.take n.toNat := by
  rw [Greatest, top_eq, if_pos hn]
  simp [map_identity]

theorem GreatestKeys_eq [Inhabited K] (t : Tree K V) (n : Int) (hn : 0 < n) :
    GreatestKeys t n = (keys t).reverse.take n.toNat := by
  rw [GreatestKeys, top_eq, if_pos hn]
  simp [List.map_reverse, map_getKeyFunc]

theorem GreatestValues_eq [Inhabited V] (t : Tree K V) (n : Int) (hn : 0 < n) :
    GreatestValues t n = ((toList t).map Prod.snd).reverse.take n.toNat := by
  rw [GreatestValues, top_eq, if_pos hn]
  simp [List.map_reverse, map_getValFunc]

theorem keys_length_eq_Size {t : Tree K V} (hsz : sizeOk t = true) :
    (keys t).length = Size t := by
  rw [keys_eq_map, List.length_map, toList_length, Size_eq_realSize hsz]

theorem Keys_eq [Inhabited K] {t : Tree K V} (hsz : sizeOk t = true) : Keys t = keys t := by
  cases t with
  | nil => rfl
  | node l r cs k v =>
    have hS : Size (node l r cs k v) = cs + 1 := rfl
    rw [Keys, LeastKeys_eq _ _ (by rw [hS]; omega)]
    rw [Int.toNat_natCast, ← keys_length_eq_Size hsz, List.take_length]

/-! ## Characterizing ForEach / ReverseForEach -/

theorem rootKV_eq [Inhabited K] [Inhabited V] (nd : Tree K V) :
    rootKV (default, default) nd = (RootKey nd, RootValue nd) := by
  cases nd <;> rfl

theorem foldStop_map {σ α β : Type} (g : σ → β → σ × Bool) (h : α → β) :
    ∀ (l : List α) (s : σ),
      foldStop (fun st a => g st (h a)) s l = foldStop g s (l.map h) := by
  intro l
  induction l with
  | nil => intro s; rfl
  | cons a as ih =>
    intro s
    rw [List.map_cons, foldStop, foldStop]
    by_cases hc : (g s (h a)).2 <;> simp [hc, ih]

theorem forEach_false_eq [Inhabited K] [Inhabited V] {σ : Type}
    (t : Tree K V) (f : σ → K → V → σ × Bool) (s : σ) :
    forEach t f false s = foldStop (fun st p => f st p.1 p.2) s (toList t) := by
  rw [forEach, forEachNode_false_eq]
  have hfun : (fun (st : σ) (nd : Tree K V) => f st (RootKey nd) (RootValue nd))
      = fun st nd =>
          (fun st2 (p : K × V) => f st2 p.1 p.2) st (rootKV (default, default) nd) := by
    funext st nd
    rw [rootKV_eq]
  rw [hfun]
  rw [foldStop_map (fun st2 (p : K × V) => f st2 p.1 p.2) (rootKV (default, default))
    (nodesInOrder t) s]
  rw [← toList_eq_map_nodes]

theorem forEach_true_eq [Inhabited K] [Inhabited V] {σ : Type}
    (t : Tree K V) (f : σ → K → V → σ × Bool) (s : σ) :
    forEach t f true s = foldStop (fun st p => f st p.1 p.2) s (toList t).reverse := by
  rw [forEach, forEachNode_true_eq]
  have hfun : (fun (st : σ) (nd : Tree K V) => f st (RootKey nd) (RootValue nd))
      = fun st nd =>
          (fun st2 (p : K × V) => f st2 p.1 p.2) st (rootKV (default, default) nd) := by
    funext st nd
    rw [rootKV_eq]
  rw [hfun]
  rw [foldStop_map (fun st2 (p : K × V) => f st2 p.1 p.2) (rootKV (default, default))
    (nodesInOrder t).reverse s]
  rw [List.map_reverse, ← toList_eq_map_nodes]

theorem ForEach_eq [Inhabited K] [Inhabited V] {σ : Type}
    (t : Tree K V) (f : σ → K → V → σ × Bool) (s : σ) :
    ForEach t f s = (foldStop (fun st p => f st p.1 p.2) s (toList t)).1 := by
  cases t with
  | nil => rfl
  | node l r cs k v =>
    rw [ForEach]
    simp only [isNil, Bool.false_eq_true, if_false]
    rw [forEach_false_eq]

theorem ReverseForEach_eq [Inhabited K] [Inhabited V] {σ : Type}
    (t : Tree K V) (f : σ → K → V → σ × Bool) (s : σ) :
    ReverseForEach t f s = (foldStop (fun st p => f st p.1 p.2) s (toList t).reverse).1 := by
  cases t with
  | nil => rfl
  | node l r cs k v =>
    rw [ReverseForEach]
    simp only [isNil, Bool.false_eq_true, if_false]
    rw [forEach_true_eq]

theorem toList_ne_nil {t : Tree K V} (h : t ≠ nil) : toList t ≠ [] := by
  intro hc
  apply h
  rw [← realSize_eq_zero_iff, ← toList_length, hc]
  rfl

theorem ForEach_first_false [Inhabited K] [Inhabited V] (t : Tree K V) (h : t ≠ nil) :
    ForEach t (fun (n : Nat) _ _ => (n + 1, false)) 0 = 1 := by
  rw [ForEach_eq]
  cases ht : toList t with
  | nil => exact absurd ht (toList_ne_nil h)
  | cons p rest => rfl

theorem ReverseForEach_first_false [Inhabited K] [Inhabited V] (t : Tree K V) (h : t ≠ nil) :
    ReverseForEach t (fun (n : Nat) _ _ => (n + 1, false)) 0 = 1 := by
  rw [ReverseForEach_eq]
  cases ht : (toList t).reverse with
  | nil =>
    exact absurd (by simpa using ht) (toList_ne_nil h)
  | cons p rest => rfl

/-! ## Model-level facts used for the round-trip and latest-value claims -/

theorem modelRunFrom_inserts_mem (a : K) :
    ∀ (kvs : List (K × V)) (m : List (K × V)),
      (a ∈ (modelRunFrom m (kvs.map (fun p => Op.ins p.1 p.2))).map Prod.fst ↔
        a ∈ m.map Prod.fst ∨ a ∈ kvs.map Prod.fst) := by
  intro kvs
  induction kvs with
  | nil => intro m; simp [modelRunFrom]
  | cons p rest ih =>
    intro m
    obtain ⟨k, v⟩ := p
    rw [List.map_cons, modelRunFrom]
    rw [ih (modelStep m (Op.ins k v))]
    simp only [modelStep]
    rw [map_fst_modelInsert]
    simp only [List.map_cons, List.mem_cons]
    tauto

theorem modelRunFrom_untouched (k : K) (v : V) :
    ∀ (ops : List (Op K V)) (m : List (K × V)),
      (∀ op ∈ ops, ¬touches k op) → (k, v) ∈ m →
      (k, v) ∈ modelRunFrom m ops := by
  intro ops
  induction ops with
  | nil => intro m _ hm; exact hm
  | cons op rest ih =>
    intro m hops hm
    rw [modelRunFrom]
    refine ih (modelStep m op) (fun o ho => hops o (List.mem_cons_of_mem _ ho)) ?_
    have hop := hops op (List.mem_cons_self _ _)
    cases op with
    | ins k' v' =>
      simp only [touches] at hop
      exact mem_modelInsert_of_ne hm (Ne.symm hop)
    | del k' =>
      simp only [touches] at hop
      exact mem_modelRemove_of_ne hm (Ne.symm hop)

theorem model_present (k : K) (v : V) (ops1 ops2 : List (Op K V))
    (h2 : ∀ op ∈ ops2, ¬touches k op) :
    (k, v) ∈ modelRun (ops1 ++ Op.ins k v :: ops2) := by
  rw [modelRun, show (Op.ins k v :: ops2) = [Op.ins k v] ++ ops2 from rfl,
    modelRunFrom_append, modelRunFrom_append]
  exact modelRunFrom_untouched k v ops2 _ h2 (mem_modelInsert_self k v _)

theorem keys_pairwise {t : Tree K V} (h : isBSTb t = true) :
    (keys t).Pairwise (· < ·) := by
  rw [keys_eq_map]
  exact List.Pairwise.map _ (fun a b hab => hab) ((isBSTb_iff_pairsSorted t).1 h)

/-! ## The claims -/

/-- C1: for every sequence of Insert and Remove operations starting from the
empty tree, after each public mutating call returns, every node of the
resulting tree satisfies the weight-balance condition with delta = 3: with
`a = size(one child) + 1` and `c = size(other child) + 1`, `a * 3 ≥ c` holds
in both child orderings at every node (`isBalanced`). -/
theorem C1_weight_balance (ops : List (Op K V)) (t : Tree K V)
    (h : build ops = some t) : isBalanced t = true :=
  (build_inv_of_eq h).2.2.1

theorem C1_witness :
    isBalanced (node (node nil nil 0 (2 : Int) (20 : Int))
      (node nil (node nil nil 0 5 50) 1 4 40) 3 3 30) = true :=
  C1_weight_balance
    [.ins 2 20, .ins 1 10, .ins 3 30, .ins 4 40, .ins 5 50, .del 1] _ (by decide)

/-- C2: after every public operation the tree is a valid binary search tree
(every key in a left subtree is less than the node's key, every key in a
right subtree greater, no duplicates anywhere — `isBSTb`, equivalently the
in-order key list is strictly increasing), and inserting n distinct keys into
the empty tree then calling `Keys` yields exactly those keys, strictly
ascending, without duplicates, of length n. -/
theorem C2_bst_order [Inhabited K] :
    (∀ (ops : List (Op K V)) (t : Tree K V), build ops = some t →
      isBSTb t = true ∧ (keys t).Pairwise (· < ·)) ∧
    (∀ (kvs : List (K × V)) (t : Tree K V), (kvs.map Prod.fst).Nodup →
      build (kvs.map (fun p => Op.ins p.1 p.2)) = some t →
      (Keys t).Perm (kvs.map Prod.fst) ∧ (Keys t).Pairwise (· < ·) ∧
        (Keys t).length = kvs.length) := by
  constructor
  · intro ops t h
    obtain ⟨h1, -, -, -⟩ := build_inv_of_eq h
    exact ⟨h1, keys_pairwise h1⟩
  · intro kvs t hnd h
    obtain ⟨h1, h2, h3, h4⟩ := build_inv_of_eq h
    have hK : Keys t = keys t := Keys_eq h2
    have hpw := keys_pairwise h1
    have hmem : ∀ a, a ∈ keys t ↔ a ∈ kvs.map Prod.fst := by
      intro a
      rw [keys_eq_map, h4, modelRun, modelRunFrom_inserts_mem a kvs []]
      simp
    have hperm : (keys t).Perm (kvs.map Prod.fst) :=
      (List.perm_ext_iff_of_nodup (hpw.imp ne_of_lt) hnd).2 hmem
    refine ⟨hK ▸ hperm, hK ▸ hpw, ?_⟩
    rw [hK, hperm.length_eq, List.length_map]

theorem C2_witness :
    isBSTb (node (node nil nil 0 (2 : Int) (20 : Int))
        (node nil (node nil nil 0 5 50) 1 4 40) 3 3 30) = true ∧
      (keys (node (node nil nil 0 (2 : Int) (20 : Int))
        (node nil (node nil nil 0 5 50) 1 4 40) 3 3 30)).Pairwise (· < ·) :=
  C2_bst_order.1 [.ins 2 20, .ins 1 10, .ins 3 30, .ins 4 40, .ins 5 50, .del 1] _
    (by decide)

/-- C3: after every public operation every node's `childSize` field equals the
sum of the sizes of its two children (`sizeOk`); `Size` returns 0 on the
empty tree and otherwise the number of entries of the specification-level
map, i.e. the number of distinct keys inserted and not since removed. -/
theorem C3_size_bookkeeping :
    Size (nil : Tree K V) = 0 ∧
    (∀ (ops : List (Op K V)) (t : Tree K V), build ops = some t →
      sizeOk t = true ∧ Size t = (modelRun ops).length) := by
  refine ⟨rfl, ?_⟩
  intro ops t h
  obtain ⟨-, h2, -, h4⟩ := build_inv_of_eq h
  refine ⟨h2, ?_⟩
  rw [Size_eq_realSize h2, ← toList_length, h4]

theorem C3_witness :
    sizeOk (node (node nil nil 0 (2 : Int) (20 : Int))
        (node nil (node nil nil 0 5 50) 1 4 40) 3 3 30) = true ∧
      Size (node (node nil nil 0 (2 : Int) (20 : Int))
        (node nil (node nil nil 0 5 50) 1 4 40) 3 3 30) =
        (modelRun [Op.ins (2 : Int) (20 : Int), .ins 1 10, .ins 3 30, .ins 4 40,
          .ins 5 50, .del 1]).length :=
  C3_size_bookkeeping.2 [.ins 2 20, .ins 1 10, .ins 3 30, .ins 4 40, .ins 5 50, .del 1] _
    (by decide)

/-- C4: no public operation faults: `Insert` and `Remove` always return a
result (never the `none` that models a Go nil-pointer panic) on any tree,
`balance` returns a result on any non-empty tree, whenever the rotation
branch is taken the heavy child `c` is non-empty, whenever the
double-rotation branch is taken the near grandchild `b` is non-empty, and
every query on the empty tree returns defaults. -/
theorem C4_no_panic [Inhabited K] [Inhabited V] :
    (∀ (t : Tree K V) (k : K) (v : V), (Insert t k v).isSome = true) ∧
    (∀ (t : Tree K V) (k : K), (Remove t k).isSome = true) ∧
    (∀ (t : Tree K V) (rh : Bool), t ≠ nil → (balance t rh).isSome = true) ∧
    (∀ x c : Tree K V, ¬(Size x + 1) * treeDelta ≥ Size c + 1 → c ≠ nil) ∧
    (∀ b z : Tree K V, ¬Size b + 1 < (Size z + 1) * treeGamma → b ≠ nil) ∧
    RootKey (nil : Tree K V) = default ∧ RootValue (nil : Tree K V) = default ∧
    Size (nil : Tree K V) = 0 ∧ (∀ k : K, Get (nil : Tree K V) k = default) ∧
    (∀ k : K, GetNode (nil : Tree K V) k = nil) ∧ Keys (nil : Tree K V) = [] ∧
    Values (nil : Tree K V) = [] ∧ (∀ n : Int, Least (nil : Tree K V) n = []) ∧
    (∀ n : Int, Greatest (nil : Tree K V) n = []) :=
  ⟨Insert_isSome, Remove_isSome, balance_isSome,
    fun _ _ h => rotation_guard_c h, fun _ _ h => rotation_guard_b h,
    rfl, rfl, rfl, fun _ => rfl, fun _ => rfl, rfl, rfl, fun _ => rfl, fun _ => rfl⟩

theorem C4_witness :
    (balance (node nil nil 0 (1 : Int) (1 : Int)) true).isSome = true :=
  C4_no_panic.2.2.1 (node nil nil 0 (1 : Int) (1 : Int)) true (by decide)

/-- C5: for every tree built by Insert/Remove operations and every key k: if
k was inserted and no later operation touches k, `Get k` returns that most
recently inserted value and `GetNode k` is non-empty; if k is absent, `Get k`
returns the zero value of the value type and `GetNode k` the absent marker,
never an error. -/
theorem C5_get_latest [Inhabited V] :
    (∀ (ops1 ops2 : List (Op K V)) (k : K) (v : V) (t : Tree K V),
      build (ops1 ++ Op.ins k v :: ops2) = some t →
      (∀ op ∈ ops2, ¬touches k op) →
      Get t k = v ∧ GetNode t k ≠ nil) ∧
    (∀ (ops : List (Op K V)) (t : Tree K V) (k : K),
      build ops = some t → k ∉ keys t →
      Get t k = default ∧ GetNode t k = nil) := by
  constructor
  · intro ops1 ops2 k v t h huntouched
    obtain ⟨h1, -, -, h4⟩ := build_inv_of_eq h
    have hmem : (k, v) ∈ toList t := by
      rw [h4]
      exact model_present k v ops1 ops2 huntouched
    obtain ⟨gl, gr, gcs, hg⟩ := GetNode_mem t k v h1 hmem
    refine ⟨?_, ?_⟩
    · rw [Get, hg, RootValue]
    · rw [hg]
      simp
  · intro ops t k _ hk
    exact ⟨Get_not_mem hk, GetNode_not_mem t k hk⟩

theorem C5_witness :
    Get (node nil (node nil nil 0 5 55) 1 (3 : Int) (33 : Int)) 5 = 55 ∧
      GetNode (node nil (node nil nil 0 5 55) 1 (3 : Int) (33 : Int)) 5 ≠ nil :=
  C5_get_latest.1 [Op.ins 3 33] [] 5 55 _ (by decide) (by simp)

/-- C6: inserting a key already present overwrites the stored value in place:
the call returns `wasAdded = false`, the tree keeps exactly the same shape,
keys and `childSize` fields (`eraseValues` unchanged — no rebalancing, no
descendant-count change), `Size` is unchanged, and a subsequent `Get` of that
key returns the new value. -/
theorem C6_insert_existing [Inhabited V] (t : Tree K V) (key : K) (val : V)
    (hbst : isBSTb t = true) (hsz : sizeOk t = true) (hbal : isBalanced t = true)
    (hmem : key ∈ keys t) :
    ∃ t', Insert t key val = some (t', false) ∧
      eraseValues t' = eraseValues t ∧ Size t' = Size t ∧
      toList t' = modelInsert key val (toList t) ∧ Get t' key = val := by
  obtain ⟨t', added, hIeq, hT, hS, hB, hR, hA, hE⟩ := Insert_spec key val t hbst hsz hbal
  have haf : added = false := by
    cases added with
    | true => exact absurd hmem (hA.1 rfl)
    | false => rfl
  subst haf
  refine ⟨t', hIeq, hE rfl, ?_, hT, ?_⟩
  · rw [Size_eq_realSize hS, Size_eq_realSize hsz]
    simpa using hR
  · have hbst' : isBSTb t' = true := by
      rw [isBSTb_iff_pairsSorted, hT]
      exact pairsSorted_modelInsert ((isBSTb_iff_pairsSorted t).1 hbst)
    exact Get_mem hbst' (hT ▸ mem_modelInsert_self key val (toList t))

theorem C6_witness :
    ∃ t', Insert (node nil (node nil nil 0 5 55) 1 (3 : Int) (33 : Int)) 3 99
        = some (t', false) ∧
      eraseValues t' = eraseValues (node nil (node nil nil 0 5 55) 1 (3 : Int) (33 : Int)) ∧
      Size t' = Size (node nil (node nil nil 0 5 55) 1 (3 : Int) (33 : Int)) ∧
      toList t' = modelInsert 3 99 (toList (node nil (node nil nil 0 5 55) 1 (3 : Int) (33 : Int))) ∧
      Get t' 3 = 99 :=
  C6_insert_existing (node nil (node nil nil 0 5 55) 1 (3 : Int) (33 : Int)) 3 99
    (by decide) (by decide) (by decide) (by decide)

/-- C7: removing an absent key returns `wasRemoved = false` and the very same
tree (hence `Size` and `Keys` unchanged): the not-found path is atomic. -/
theorem C7_remove_absent (t : Tree K V) (key : K) (h : key ∉ keys t) :
    Remove t key = some (t, false) :=
  Remove_not_mem t key h

theorem C7_witness :
    Remove (node nil (node nil nil 0 5 55) 1 (3 : Int) (33 : Int)) 42
      = some (node nil (node nil nil 0 5 55) 1 (3 : Int) (33 : Int), false) :=
  C7_remove_absent (node nil (node nil nil 0 5 55) 1 (3 : Int) (33 : Int)) 42 (by decide)

/-- C8 counterexample: the claim fails as stated at bound n = 0 on a
one-element tree: `Least 0` returns one element, not at most 0. -/
theorem C8_counterexample :
    ¬ (Least (node nil nil 0 (1 : Int) (10 : Int)) 0).length ≤ (0 : Int).toNat := by
  decide

/-- C8 (amended: for every bound n ≥ 1; for n ≤ 0 the code returns one
element, see C10): `Least n` and its Keys/Values and Greatest variants return
the min(n, Size) entries from the corresponding end — the prefix of the
strictly ascending key sequence, respectively of its reverse — and when n is
at least the tree size they return all entries. -/
theorem C8_bounded_extraction [Inhabited K] [Inhabited V]
    (ops : List (Op K V)) (t : Tree K V) (n : Int)
    (h : build ops = some t) (hn : 1 ≤ n) :
    Least t n = (nodesInOrder t).take n.toNat ∧
    LeastKeys t n = (keys t).take n.toNat ∧
    LeastValues t n = ((toList t).map Prod.snd).take n.toNat ∧
    Greatest t n = (nodesInOrder t).reverse.take n.toNat ∧
    GreatestKeys t n = (keys t).reverse.take n.toNat ∧
    GreatestValues t n = ((toList t).map Prod.snd).reverse.take n.toNat ∧
    (LeastKeys t n).length = min n.toNat (Size t) ∧
    (GreatestKeys t n).length = min n.toNat (Size t) ∧
    (keys t).Pairwise (· < ·) ∧
    ((Size t : Int) ≤ n → LeastKeys t n = keys t ∧ GreatestKeys t n = (keys t).reverse) := by
  obtain ⟨h1, h2, -, -⟩ := build_inv_of_eq h
  have hn0 : (0 : Int) < n := by omega
  have hklen : (keys t).length = Size t := keys_length_eq_Size h2
  refine ⟨Least_eq t n hn0, LeastKeys_eq t n hn0, LeastValues_eq t n hn0,
    Greatest_eq t n hn0, GreatestKeys_eq t n hn0, GreatestValues_eq t n hn0, ?_, ?_,
    keys_pairwise h1, ?_⟩
  · rw [LeastKeys_eq t n hn0, List.length_take, hklen]
  · rw [GreatestKeys_eq t n hn0, List.length_take, List.length_reverse, hklen]
  · intro hsz
    have hsz' : Size t ≤ n.toNat := by omega
    constructor
    · rw [LeastKeys_eq t n hn0]
      exact List.take_of_length_le (by omega)
    · rw [GreatestKeys_eq t n hn0]
      exact List.take_of_length_le (by simp [hklen]; omega)

theorem C8_witness :
    LeastKeys (node (node nil nil 0 (2 : Int) (20 : Int))
        (node nil (node nil nil 0 5 50) 1 4 40) 3 3 30) 2
      = (keys (node (node nil nil 0 (2 : Int) (20 : Int))
        (node nil (node nil nil 0 5 50) 1 4 40) 3 3 30)).take (2 : Int).toNat :=
  (C8_bounded_extraction
    [.ins 2 20, .ins 1 10, .ins 3 30, .ins 4 40, .ins 5 50, .del 1] _ 2
    (by decide) (by decide)).2.1

/-- C9: `ForEach` visits the (key, value) pairs in ascending key order (the
in-order entry list, which is strictly sorted on every reachable tree) and
`ReverseForEach` in descending order, each as a stop-early fold that abandons
the remaining elements as soon as the callback returns false; in particular a
callback returning false on its first invocation is called exactly once on
any non-empty tree. -/
theorem C9_traversal (σ : Type) [Inhabited K] [Inhabited V] :
    (∀ (t : Tree K V) (f : σ → K → V → σ × Bool) (s : σ),
      ForEach t f s = (foldStop (fun st p => f st p.1 p.2) s (toList t)).1) ∧
    (∀ (t : Tree K V) (f : σ → K → V → σ × Bool) (s : σ),
      ReverseForEach t f s = (foldStop (fun st p => f st p.1 p.2) s (toList t).reverse).1) ∧
    (∀ (ops : List (Op K V)) (t : Tree K V), build ops = some t →
      pairsSorted (toList t)) ∧
    (∀ t : Tree K V, t ≠ nil → ForEach t (fun (n : Nat) _ _ => (n + 1, false)) 0 = 1) ∧
    (∀ t : Tree K V, t ≠ nil →
      ReverseForEach t (fun (n : Nat) _ _ => (n + 1, false)) 0 = 1) := by
  refine ⟨ForEach_eq, ReverseForEach_eq, ?_, ForEach_first_false, ReverseForEach_first_false⟩
  intro ops t h
  exact (isBSTb_iff_pairsSorted t).1 (build_inv_of_eq h).1

theorem C9_witness :
    ForEach (node (node nil nil 0 (2 : Int) (20 : Int))
        (node nil (node nil nil 0 5 50) 1 4 40) 3 3 30)
      (fun (n : Nat) _ _ => (n + 1, false)) 0 = 1 :=
  (C9_traversal Nat).2.2.2.1
    (node (node nil nil 0 (2 : Int) (20 : Int))
      (node nil (node nil nil 0 5 50) 1 4 40) 3 3 30) (by decide)

theorem top_length_nonpos (t : Tree K V) (n : Int) (rev : Bool) (f : Tree K V → R)
    (hne : t ≠ nil) (hn : n ≤ 0) : (top t n rev f).length = 1 := by
  rw [top_eq, if_neg (by omega : ¬(0 : Int) < n)]
  have hpos : 0 < realSize t := Nat.pos_of_ne_zero (fun h0 => hne (realSize_eq_zero_iff.1 h0))
  have hlen := nodesInOrder_length t
  cases rev <;> simp [List.length_take] <;> omega

/-- C10: for every non-empty tree and every bound n ≤ 0, `Least`, `Greatest`
and their Keys/Values variants return exactly one element rather than an
empty slice, because `top`'s continue condition `len(result) < n` is only
checked after the first element has been appended. -/
theorem C10_nonpositive_bound [Inhabited K] [Inhabited V]
    (t : Tree K V) (n : Int) (hne : t ≠ nil) (hn : n ≤ 0) :
    (Least t n).length = 1 ∧ (LeastKeys t n).length = 1 ∧
    (LeastValues t n).length = 1 ∧ (Greatest t n).length = 1 ∧
    (GreatestKeys t n).length = 1 ∧ (GreatestValues t n).length = 1 :=
  ⟨top_length_nonpos t n false identity hne hn,
    top_length_nonpos t n false getKeyFunc hne hn,
    top_length_nonpos t n false getValFunc hne hn,
    top_length_nonpos t n true identity hne hn,
    top_length_nonpos t n true getKeyFunc hne hn,
    top_length_nonpos t n true getValFunc hne hn⟩

theorem C10_witness :
    (Least (node nil nil 0 (1 : Int) (10 : Int)) 0).length = 1 ∧
    (LeastKeys (node nil nil 0 (1 : Int) (10 : Int)) 0).length = 1 ∧
    (LeastValues (node nil nil 0 (1 : Int) (10 : Int)) 0).length = 1 ∧
    (Greatest (node nil nil 0 (1 : Int) (10 : Int)) 0).length = 1 ∧
    (GreatestKeys (node nil nil 0 (1 : Int) (10 : Int)) 0).length = 1 ∧
    (GreatestValues (node nil nil 0 (1 : Int) (10 : Int)) 0).length = 1 :=
  C10_nonpositive_bound (node nil nil 0 (1 : Int) (10 : Int)) 0 (by decide) (by decide)

end Wbtree
